import Mathlib

/-!
Verification of the vinyl-sheets resolution engine (`app.py`).

This file gives a shallow embedding, in Lean 4, of the pure resolution
logic of the Flask application `src/app.py`: line normalization, entry
parsing with artist inference, the difflib-based similarity scorer, the
Camelot key table, candidate scoring/selection, the feature-consensus
re-ranking of `/api/search_tracks`, and the feature batch fetcher.

Python strings are modelled as `List Char`, Python floats as `ℚ` (all the
arithmetic the engine performs on scores is exact decimal arithmetic, so
rational arithmetic is the faithful reading), Python `None` as `Option`.
External services (Spotify catalog, ReccoBeats) are parameters: the
functions below embed the pure computation the source performs on the
already-fetched payloads.
-/

set_option maxRecDepth 10000

abbrev Str := List Char

/-- Python `str.isspace` / `re` `\s` for the characters relevant here:
ASCII whitespace plus the Unicode space characters Python treats as
whitespace. -/
def isPySpace (c : Char) : Bool :=
  c = ' ' ∨ c = '\t' ∨ c = '\n' ∨ c = '\r' ∨ c = '\x0b' ∨ c = '\x0c' ∨
  c = '\x85' ∨ c = '\xa0' ∨ c = ' ' ∨
  (0x2000 ≤ c.toNat ∧ c.toNat ≤ 0x200a) ∨
  c = ' ' ∨ c = ' ' ∨ c = ' ' ∨ c = ' ' ∨ c = '　'

/-- Python `str.strip()` on a character list. -/
def pyStrip (s : Str) : Str :=
  ((s.dropWhile isPySpace).reverse.dropWhile isPySpace).reverse

/-- Python `str.lower()` (ASCII case folding; the engine's scope is
Latin-script text). -/
def pyLower (s : Str) : Str := s.map Char.toLower

/-- Auxiliary recursion for `chunk_list`, structurally on a fuel bounded
by the list length (each step consumes at least one element when
`size ≠ 0`). -/
def chunkGo (size : Nat) : Nat → List α → List (List α)
  | 0, _ => []
  | _, [] => []
  | fuel + 1, l => l.take size :: chunkGo size fuel (l.drop size)

/-- `app.py` `chunk_list(seq, size)`: `[seq[i:i+size] for i in range(0, len(seq), size)]`.
(Python raises for `size = 0` — `range` rejects step 0; the model returns
`[]` there and every theorem assumes `0 < size`.) -/
def chunk_list (seq : List α) (size : Nat) : List (List α) :=
  if size = 0 then [] else chunkGo size seq.length seq

theorem chunkGo_nil (size fuel : Nat) : chunkGo size fuel ([] : List α) = [] := by
  cases fuel <;> rfl

theorem chunkGo_ne_nil (size fuel : Nat) (l : List α) (hf : 1 ≤ fuel) (hl : l ≠ []) :
    chunkGo size fuel l ≠ [] := by
  cases fuel with
  | zero => omega
  | succ n =>
    cases l with
    | nil => exact absurd rfl hl
    | cons a t => simp [chunkGo]

theorem chunkGo_join (size fuel : Nat) (hsize : 0 < size) :
    ∀ l : List α, l.length ≤ fuel → (chunkGo size fuel l).join = l := by
  induction fuel with
  | zero =>
    intro l hl
    cases l with
    | nil => simp [chunkGo]
    | cons a t => simp at hl
  | succ n ih =>
    intro l hl
    cases l with
    | nil => simp [chunkGo]
    | cons a t =>
      have hs1 : 1 ≤ size := hsize
      have hdrop : ((a :: t).drop size).length ≤ n := by
        rw [List.length_drop]
        simp only [List.length_cons] at hl ⊢
        omega
      simp only [chunkGo, List.join_cons, ih _ hdrop, List.take_append_drop]

theorem chunkGo_le (size fuel : Nat) (l : List α) :
    ∀ c ∈ chunkGo size fuel l, c.length ≤ size := by
  induction fuel generalizing l with
  | zero => simp [chunkGo]
  | succ n ih =>
    cases l with
    | nil => simp [chunkGo]
    | cons a t =>
      intro c hc
      simp only [chunkGo, List.mem_cons] at hc
      rcases hc with rfl | hc
      · simp only [List.length_take]
        exact Nat.min_le_left _ _
      · exact ih _ c hc

theorem chunkGo_dropLast (size fuel : Nat) (hsize : 0 < size) :
    ∀ l : List α, l.length ≤ fuel →
      ∀ c ∈ (chunkGo size fuel l).dropLast, c.length = size := by
  induction fuel with
  | zero =>
    intro l _ c hc
    cases l <;> simp [chunkGo] at hc
  | succ n ih =>
    intro l hl
    cases l with
    | nil =>
      intro c hc
      rw [chunkGo_nil] at hc
      simp at hc
    | cons a t =>
      have hs1 : 1 ≤ size := hsize
      have hdrop : ((a :: t).drop size).length ≤ n := by
        rw [List.length_drop]
        simp only [List.length_cons] at hl ⊢
        omega
      intro c hc
      simp only [chunkGo] at hc
      rcases hrest : chunkGo size n ((a :: t).drop size) with _ | ⟨r, rs⟩
      · rw [hrest] at hc
        simp at hc
      · rw [hrest] at hc
        rw [show ((a :: t).take size :: r :: rs).dropLast
              = (a :: t).take size :: (r :: rs).dropLast from rfl] at hc
        rcases List.mem_cons.mp hc with rfl | hc'
        · have hne : (a :: t).drop size ≠ [] := by
            intro hnil
            rw [hnil] at hrest
            rw [chunkGo_nil] at hrest
            exact List.noConfusion hrest
          have hlen : size < (a :: t).length := by
            by_contra hcon
            push_neg at hcon
            exact hne (List.drop_eq_nil_of_le hcon)
          rw [List.length_take]
          exact Nat.min_eq_left (Nat.le_of_lt hlen)
        · rw [← hrest] at hc'
          exact ih _ hdrop c hc'

/-- C10: chunking is lossless and in order — concatenating the chunks
gives back the original list — no chunk exceeds the requested size, and
every chunk but possibly the last has exactly the requested size. -/
theorem chunk_list_partition {α : Type} (l : List α) (size : Nat) (hsize : 0 < size) :
    (chunk_list l size).join = l ∧
    (∀ c ∈ chunk_list l size, c.length ≤ size) ∧
    (∀ c ∈ (chunk_list l size).dropLast, c.length = size) := by
  have hne : size ≠ 0 := Nat.pos_iff_ne_zero.mp hsize
  refine ⟨?_, ?_, ?_⟩
  · simpa [chunk_list, hne] using chunkGo_join size l.length hsize l le_rfl
  · intro c hc
    rw [chunk_list, if_neg hne] at hc
    exact chunkGo_le size l.length l c hc
  · intro c hc
    rw [chunk_list, if_neg hne] at hc
    exact chunkGo_dropLast size l.length hsize l le_rfl c hc

/-- Witness for C10 at a concrete input: chunking seven elements by
three gives back the list, chunk sizes `[3, 3, 1]`. -/
theorem chunk_list_partition_witness :
    0 < 3 ∧
    ((chunk_list [1, 2, 3, 4, 5, 6, 7] 3).join = [1, 2, 3, 4, 5, 6, 7] ∧
     (∀ c ∈ chunk_list [1, 2, 3, 4, 5, 6, 7] 3, c.length ≤ 3) ∧
     (∀ c ∈ (chunk_list [1, 2, 3, 4, 5, 6, 7] 3).dropLast, c.length = 3)) :=
  ⟨by decide, chunk_list_partition [1, 2, 3, 4, 5, 6, 7] 3 (by decide)⟩

/-- `app.py` `PITCH_CLASS_MAP` as a lookup with the Python `dict.get(key, "")`
default. -/
def PITCH_CLASS_MAP (key : Int) : String :=
  if key = 0 then "C" else if key = 1 then "C♯/D♭" else if key = 2 then "D"
  else if key = 3 then "D♯/E♭" else if key = 4 then "E" else if key = 5 then "F"
  else if key = 6 then "F♯/G♭" else if key = 7 then "G" else if key = 8 then "G♯/A♭"
  else if key = 9 then "A" else if key = 10 then "A♯/B♭" else if key = 11 then "B"
  else ""

/-- `app.py` `CAMELOT_MAP` as an association list, entries in source order. -/
def CAMELOT_TABLE : List ((Int × Int) × String) :=
  [((0, 1), "8B"), ((1, 1), "3B"), ((2, 1), "10B"), ((3, 1), "5B"),
   ((4, 1), "12B"), ((5, 1), "7B"), ((6, 1), "2B"), ((7, 1), "9B"),
   ((8, 1), "4B"), ((9, 1), "11B"), ((10, 1), "6B"), ((11, 1), "1B"),
   ((0, 0), "5A"), ((1, 0), "12A"), ((2, 0), "7A"), ((3, 0), "2A"),
   ((4, 0), "9A"), ((5, 0), "4A"), ((6, 0), "11A"), ((7, 0), "6A"),
   ((8, 0), "1A"), ((9, 0), "8A"), ((10, 0), "3A"), ((11, 0), "10A")]

/-- `CAMELOT_MAP.get((key, mode), "")`. -/
def CAMELOT_MAP (key mode : Int) : String :=
  (((CAMELOT_TABLE.find? (fun p => p.1 == (key, mode))).map Prod.snd)).getD ""

/-- `app.py` `key_mode_to_camelot(key, mode)` (the `is None` guards do not
arise in the integer model; a key outside 0..11 yields `("", "")`). -/
def key_mode_to_camelot (key mode : Int) : String × String :=
  if key < 0 ∨ 11 < key then ("", "")
  else
    let camelot := CAMELOT_MAP key mode
    let key_name := PITCH_CLASS_MAP key
    let suffix := if mode = 1 then "maj" else "min"
    (camelot, if key_name = "" then "" else key_name ++ " " ++ suffix)

/-- C5: over the 24-element domain (pitch class 0-11 × mode minor/major)
the Camelot table is injective — no two distinct pairs share a symbol —
and every pair yields a non-empty symbol and a non-empty readable name. -/
theorem camelot_bijective_total (p q : Fin 12 × Fin 2)
    (h : CAMELOT_MAP p.1.val p.2.val = CAMELOT_MAP q.1.val q.2.val) : p = q ∧
    ((key_mode_to_camelot p.1.val p.2.val).1 ≠ "" ∧
     (key_mode_to_camelot p.1.val p.2.val).2 ≠ "") := by
  revert h
  revert p q
  decide

/-- Witness for C5: instantiating at the pair (pitch class 0, major). -/
theorem camelot_bijective_total_witness :
    ((⟨0, by decide⟩, ⟨1, by decide⟩) : Fin 12 × Fin 2)
      = (⟨0, by decide⟩, ⟨1, by decide⟩) ∧
    ((key_mode_to_camelot 0 1).1 ≠ "" ∧ (key_mode_to_camelot 0 1).2 ≠ "") :=
  camelot_bijective_total (⟨0, by decide⟩, ⟨1, by decide⟩)
    (⟨0, by decide⟩, ⟨1, by decide⟩) rfl

/-- ASCII decimal digit — `re` `\d` over the engine's Latin-script scope. -/
def isDigitCh (c : Char) : Bool := '0' ≤ c ∧ c ≤ '9'

/-- The character class `[A-D]` under `re.IGNORECASE`. -/
def isADCh (c : Char) : Bool := ('A' ≤ c ∧ c ≤ 'D') ∨ ('a' ≤ c ∧ c ≤ 'd')

/-- The character class `[\.\-\)]` of the leading-numbering pattern. -/
def isNumPunct (c : Char) : Bool := c = '.' ∨ c = '-' ∨ c = ')'

/-- Word characters for `re` `\b` (ASCII alphanumerics, underscore, and
the numeric fraction character that occurs in the layout-word pattern). -/
def isWordCh (c : Char) : Bool :=
  isDigitCh c ∨ ('A' ≤ c ∧ c ≤ 'Z') ∨ ('a' ≤ c ∧ c ≤ 'z') ∨ c = '_' ∨ c = '⅓'

/-- Single-character separator unification of `normalize_separators`. -/
def sepChar (c : Char) : Char :=
  if c = '–' then '-' else if c = '—' then '-'
  else if c = '：' then ':' else if c = '；' then ';' else c

/-- `app.py` `normalize_separators`: the four `str.replace` calls are
single-character replacements, i.e. a character map. -/
def normalize_separators (line : Str) : Str := line.map sepChar

/-- Case-insensitive literal prefix match (`re.IGNORECASE` literal). -/
def ciPrefix (kw : Str) (t : Str) : Bool :=
  pyLower (t.take kw.length) = pyLower kw

/-- First keyword of `kws` matching case-insensitively at the head of `t`;
returns the rest after the keyword. -/
def tryKeywords (kws : List Str) (t : Str) : Option Str :=
  match kws with
  | [] => none
  | kw :: rest => if ciPrefix kw t then some (t.drop kw.length) else tryKeywords rest t

/-- Case-insensitive substring occurrence test. -/
def ciSubstr (kw : Str) : Str → Bool
  | [] => ciPrefix kw []
  | c :: rest => ciPrefix kw (c :: rest) || ciSubstr kw rest

/-- Split at the first occurrence of `ch`: `(before, after)`, `ch` itself
consumed. -/
def breakAtChar (ch : Char) : Str → Option (Str × Str)
  | [] => none
  | c :: rest =>
    if c = ch then some ([], rest)
    else (breakAtChar ch rest).map (fun p => (c :: p.1, p.2))

/-- `re.sub(r"^\s*[A-D]?\d+\s*[\.\-\)]\s*", "", result, flags=IGNORECASE)`.
The pattern is anchored at the start and its adjacent pieces use disjoint
character classes, so greedy matching is deterministic. -/
def stripNum1 (s : Str) : Str :=
  let t1 := s.dropWhile isPySpace
  let t2 := match t1 with
            | c :: rest => if isADCh c then rest else c :: rest
            | [] => []
  if (t2.takeWhile isDigitCh) = [] then s
  else
    let t3 := (t2.dropWhile isDigitCh).dropWhile isPySpace
    match t3 with
    | c :: rest => if isNumPunct c then rest.dropWhile isPySpace else s
    | [] => s

/-- `re.sub(r"^\s*[A-D]?\d+\s+", "", result, flags=IGNORECASE)`. -/
def stripNum2 (s : Str) : Str :=
  let t1 := s.dropWhile isPySpace
  let t2 := match t1 with
            | c :: rest => if isADCh c then rest else c :: rest
            | [] => []
  if (t2.takeWhile isDigitCh) = [] then s
  else
    let t3 := t2.dropWhile isDigitCh
    match t3 with
    | c :: _ => if isPySpace c then t3.dropWhile isPySpace else s
    | [] => s

/-- `re.sub(r"^Side\s+[A-D]\s*:?", "", result, flags=IGNORECASE)` (the
caller strips afterwards; the strip is part of `clean_line` below). -/
def stripSide (s : Str) : Str :=
  if ciPrefix ['S', 'i', 'd', 'e'] s then
    match s.drop 4 with
    | c :: _ =>
      if isPySpace c then
        match (s.drop 4).dropWhile isPySpace with
        | d :: rest =>
          if isADCh d then
            match rest.dropWhile isPySpace with
            | ':' :: r2 => r2
            | r2 => r2
          else s
        | [] => s
      else s
    | [] => s
  else s

/-- The lookahead `(?=-\s|$)` of the attribution-asterisk pattern
(`$` matches at the end or before a final newline). -/
def astLookahead (t : Str) : Bool :=
  match t with
  | [] => true
  | ['\n'] => true
  | '-' :: d :: _ => isPySpace d
  | _ => false

/-- Position-by-position scan of `re.sub(r"\*+\s*(?=-\s|$)", "", result)`
(a global substitution; the lookahead is not consumed). Structural on a
fuel bounded by the string length. -/
def asteriskGo : Nat → Str → Str
  | 0, s => s
  | _, [] => []
  | fuel + 1, c :: rest =>
    if c = '*' then
      if astLookahead ((rest.dropWhile (· = '*')).dropWhile isPySpace) then
        asteriskGo fuel ((rest.dropWhile (· = '*')).dropWhile isPySpace)
      else c :: asteriskGo fuel rest
    else c :: asteriskGo fuel rest

/-- `re.sub(r"\*+\s*(?=-\s|$)", "", result)`. -/
def asteriskSub (s : Str) : Str := asteriskGo s.length s

/-- Leftmost-match search for an end-anchored pattern whose match always
extends to the end of the string: the result keeps the prefix before the
match. -/
def removeEndAnchored (check : Str → Bool) : Str → Str
  | [] => []
  | c :: rest => if check (c :: rest) then [] else c :: removeEndAnchored check rest

/-- Match test for `\s*\((?:LP|Album|EP|Single)[^)]*\)\s*$` at a suffix. -/
def parenMeta1Check (t : Str) : Bool :=
  match t.dropWhile isPySpace with
  | '(' :: v =>
    match tryKeywords [['L', 'P'], ['A', 'l', 'b', 'u', 'm'], ['E', 'P'],
                       ['S', 'i', 'n', 'g', 'l', 'e']] v with
    | some w =>
      match breakAtChar ')' w with
      | some (_, after) => after.all isPySpace
      | none => false
    | none => false
  | _ => false

/-- `re.sub(r"\s*\((?:LP|Album|EP|Single)[^)]*\)\s*$", "", result, IGNORECASE)`. -/
def removeParenMeta1 (s : Str) : Str := removeEndAnchored parenMeta1Check s

/-- Match test for `\s*\([^)]*(Reissue|Remastered|Press|JP-|US-|UK-)[^)]*\)\s*$`:
the parenthesised content (up to the first `)`) contains one of the
release keywords, and only whitespace follows the `)`. -/
def parenMeta2Check (t : Str) : Bool :=
  match t.dropWhile isPySpace with
  | '(' :: v =>
    match breakAtChar ')' v with
    | some (content, after) =>
      (ciSubstr ['R', 'e', 'i', 's', 's', 'u', 'e'] content ||
       ciSubstr ['R', 'e', 'm', 'a', 's', 't', 'e', 'r', 'e', 'd'] content ||
       ciSubstr ['P', 'r', 'e', 's', 's'] content ||
       ciSubstr ['J', 'P', '-'] content ||
       ciSubstr ['U', 'S', '-'] content ||
       ciSubstr ['U', 'K', '-'] content) && after.all isPySpace
    | none => false
  | _ => false

/-- `re.sub(r"\s*\([^)]*(Reissue|Remastered|Press|JP-|US-|UK-)[^)]*\)\s*$", ...)`. -/
def removeParenMeta2 (s : Str) : Str := removeEndAnchored parenMeta2Check s

/-- Match test for `\s*\[[^\]]*\]\s*$` at a suffix. -/
def bracketTailCheck (t : Str) : Bool :=
  match t.dropWhile isPySpace with
  | '[' :: v =>
    match breakAtChar ']' v with
    | some (_, after) => after.all isPySpace
    | none => false
  | _ => false

/-- `re.sub(r"\s*\[[^\]]*\]\s*$", "", result)`. -/
def removeBracketTail (s : Str) : Str := removeEndAnchored bracketTailCheck s

/-- Single leftmost substitution whose match may end just before a final
newline: the matcher returns the part of the string after the match. -/
def removeSpanEnd (m : Str → Option Str) : Str → Str
  | [] => []
  | c :: rest =>
    match m (c :: rest) with
    | some keep => keep
    | none => c :: removeSpanEnd m rest

/-- Matcher for `\s+\[(Remastered|Remix|Edit|Version|Bonus Track)\]$`. -/
def bracketTagMatch (t : Str) : Option Str :=
  match t with
  | [] => none
  | c :: _ =>
    if isPySpace c then
      match t.dropWhile isPySpace with
      | [] => none
      | b :: v =>
        if b = '[' then
          match tryKeywords [['R', 'e', 'm', 'a', 's', 't', 'e', 'r', 'e', 'd'],
                             ['R', 'e', 'm', 'i', 'x'], ['E', 'd', 'i', 't'],
                             ['V', 'e', 'r', 's', 'i', 'o', 'n'],
                             ['B', 'o', 'n', 'u', 's', ' ', 'T', 'r', 'a', 'c', 'k']] v with
          | none => none
          | some [] => none
          | some (b2 :: w) =>
            if b2 = ']' then (if w = [] ∨ w = ['\n'] then some w else none) else none
        else none
    else none

/-- `re.sub(r"\s+\[(Remastered|Remix|Edit|Version|Bonus Track)\]$", "", result, IGNORECASE)`. -/
def removeBracketTag (s : Str) : Str := removeSpanEnd bracketTagMatch s

/-- The divider character class `[-_~=\*─-╿\.\s]`. -/
def isDividerChar (c : Char) : Bool :=
  c = '-' ∨ c = '_' ∨ c = '~' ∨ c = '=' ∨ c = '*' ∨ c = '.' ∨ isPySpace c ∨
  (0x2500 ≤ c.toNat ∧ c.toNat ≤ 0x257F)

/-- Leftmost-match search with one character of left context (for `\b`). -/
def removeEndCtx (check : Option Char → Str → Bool) : Option Char → Str → Str
  | _, [] => []
  | prev, c :: rest =>
    if check prev (c :: rest) then [] else c :: removeEndCtx check (some c) rest

/-- Match test for `\s*\b(FOURSIDER|STEREO|MONO|QUADROPHONIC|33⅓|33RPM|45RPM)\b\s*$`
at a suffix with left context `prev`. When no whitespace is consumed the
word boundary needs the previous character (if any) to be a non-word
character; the trailing `\b` is subsumed by `\s*$`. -/
def layoutWordCheck (prev : Option Char) (t : Str) : Bool :=
  let u := t.dropWhile isPySpace
  let boundary :=
    if u.length = t.length then
      match prev with
      | none => true
      | some p => ¬ isWordCh p
    else true
  boundary &&
  (match tryKeywords [['F', 'O', 'U', 'R', 'S', 'I', 'D', 'E', 'R'],
                      ['S', 'T', 'E', 'R', 'E', 'O'], ['M', 'O', 'N', 'O'],
                      ['Q', 'U', 'A', 'D', 'R', 'O', 'P', 'H', 'O', 'N', 'I', 'C'],
                      ['3', '3', '⅓'], ['3', '3', 'R', 'P', 'M'],
                      ['4', '5', 'R', 'P', 'M']] u with
   | some w => w.all isPySpace
   | none => false)

/-- `re.sub(r"\s*\b(FOURSIDER|STEREO|MONO|QUADROPHONIC|33⅓|33RPM|45RPM)\b\s*$", ...)`. -/
def removeLayoutWord (s : Str) : Str := removeEndCtx layoutWordCheck none s

/-- `re.sub(r"\s{2,}", " ", result)`: collapse whitespace runs of length
at least two to a single space (single whitespace characters are kept
as-is). Structural on a fuel bounded by the string length. -/
def collapseGo : Nat → Str → Str
  | 0, s => s
  | _, [] => []
  | _ + 1, [c] => [c]
  | fuel + 1, c :: d :: rest =>
    if isPySpace c ∧ isPySpace d then ' ' :: collapseGo fuel (rest.dropWhile isPySpace)
    else c :: collapseGo fuel (d :: rest)

/-- `re.sub(r"\s{2,}", " ", result)`. -/
def collapseWs (s : Str) : Str := collapseGo s.length s

/-- `app.py` `clean_line`, the stages in source order. -/
def cleanThroughTag (r0 : Str) : Str :=
  removeBracketTag (removeBracketTail (removeParenMeta2 (removeParenMeta1
    (asteriskSub (pyStrip (stripSide (stripNum2 (stripNum1 r0))))))))

def clean_line (line : Str) : Str :=
  if line = [] then []
  else if pyStrip line = [] then []
  else if cleanThroughTag (pyStrip line) ≠ [] ∧
          (cleanThroughTag (pyStrip line)).all isDividerChar then []
  else pyStrip (collapseWs (removeLayoutWord (cleanThroughTag (pyStrip line))))

/-- The per-line normalization pipeline used by `clean_and_normalize`:
separator unification followed by cleaning. -/
def normalizeLine (line : Str) : Str := clean_line (normalize_separators line)

theorem pyStrip_sublist (s : Str) : List.Sublist (pyStrip s) s := by
  have h1 : List.Sublist (s.dropWhile isPySpace) s := List.dropWhile_sublist _
  have h2 : List.Sublist ((s.dropWhile isPySpace).reverse.dropWhile isPySpace)
      (s.dropWhile isPySpace).reverse := List.dropWhile_sublist _
  have h3 := h2.reverse
  rw [List.reverse_reverse] at h3
  exact h3.trans h1

theorem stripNum1_sublist (s : Str) : List.Sublist (stripNum1 s) s := by
  have h1 : List.Sublist (s.dropWhile isPySpace) s := List.dropWhile_sublist _
  unfold stripNum1
  rcases hd : s.dropWhile isPySpace with _ | ⟨c, rest⟩
  · simp
  · rw [hd] at h1
    have hrest : List.Sublist rest s := ((List.Sublist.refl rest).cons c).trans h1
    by_cases had : isADCh c <;> simp only [had, if_true, if_false, Bool.false_eq_true]
    · split
      · exact List.Sublist.refl s
      · have h3 : List.Sublist ((rest.dropWhile isDigitCh).dropWhile isPySpace) rest :=
          (List.dropWhile_sublist _).trans (List.dropWhile_sublist _)
        split
        · rename_i c' rest' heq
          split
          · refine ((List.dropWhile_sublist _).trans ?_).trans hrest
            rw [heq] at h3
            exact ((List.Sublist.refl rest').cons c').trans h3
          · exact List.Sublist.refl s
        · exact List.Sublist.refl s
    · split
      · exact List.Sublist.refl s
      · have h3 : List.Sublist (((c :: rest).dropWhile isDigitCh).dropWhile isPySpace)
            (c :: rest) := (List.dropWhile_sublist _).trans (List.dropWhile_sublist _)
        split
        · rename_i c' rest' heq
          split
          · refine ((List.dropWhile_sublist _).trans ?_).trans h1
            rw [heq] at h3
            exact ((List.Sublist.refl rest').cons c').trans h3
          · exact List.Sublist.refl s
        · exact List.Sublist.refl s

theorem stripNum2_sublist (s : Str) : List.Sublist (stripNum2 s) s := by
  have h1 : List.Sublist (s.dropWhile isPySpace) s := List.dropWhile_sublist _
  unfold stripNum2
  rcases hd : s.dropWhile isPySpace with _ | ⟨c, rest⟩
  · simp
  · rw [hd] at h1
    have hrest : List.Sublist rest s := ((List.Sublist.refl rest).cons c).trans h1
    by_cases had : isADCh c <;> simp only [had, if_true, if_false, Bool.false_eq_true]
    · split
      · exact List.Sublist.refl s
      · split
        · split
          · exact ((List.dropWhile_sublist _).trans (List.dropWhile_sublist _)).trans hrest
          · exact List.Sublist.refl s
        · exact List.Sublist.refl s
    · split
      · exact List.Sublist.refl s
      · split
        · split
          · exact ((List.dropWhile_sublist _).trans (List.dropWhile_sublist _)).trans h1
          · exact List.Sublist.refl s
        · exact List.Sublist.refl s

theorem tailColon_sublist (l : Str) :
    List.Sublist (match l with | ':' :: r2 => r2 | r2 => r2) l := by
  split
  · exact (List.Sublist.refl _).cons ':'
  · exact List.Sublist.refl _

theorem stripSide_sublist (s : Str) : List.Sublist (stripSide s) s := by
  unfold stripSide
  have hdrop : List.Sublist (s.drop 4) s := List.drop_sublist _ _
  split
  · split
    · split
      · split
        · rename_i d rest2 heq2
          have h2 : List.Sublist (List.dropWhile isPySpace (s.drop 4)) (s.drop 4) :=
            List.dropWhile_sublist _
          rw [heq2] at h2
          have h3 : List.Sublist rest2 s :=
            (((List.Sublist.refl rest2).cons d).trans h2).trans hdrop
          split
          · exact (tailColon_sublist _).trans ((List.dropWhile_sublist _).trans h3)
          · exact List.Sublist.refl s
        · exact List.Sublist.refl s
      · exact List.Sublist.refl s
    · exact List.Sublist.refl s
  · exact List.Sublist.refl s

theorem asteriskGo_sublist : ∀ (fuel : Nat) (s : Str), List.Sublist (asteriskGo fuel s) s := by
  intro fuel
  induction fuel with
  | zero => intro s; rcases s with _ | ⟨c, rest⟩ <;> exact List.Sublist.refl _
  | succ n ih =>
    intro s
    rcases s with _ | ⟨c, rest⟩
    · exact List.Sublist.refl []
    · show List.Sublist (asteriskGo (n + 1) (c :: rest)) (c :: rest)
      unfold asteriskGo
      split
      · split
        · have h1 : List.Sublist ((rest.dropWhile (· = '*')).dropWhile isPySpace) rest :=
            (List.dropWhile_sublist _).trans (List.dropWhile_sublist _)
          exact ((ih _).trans h1).cons c
        · exact (ih rest).cons₂ c
      · exact (ih rest).cons₂ c

theorem removeEndAnchored_sublist (check : Str → Bool) :
    ∀ s : Str, List.Sublist (removeEndAnchored check s) s := by
  intro s
  induction s with
  | nil => exact List.Sublist.refl []
  | cons c rest ih =>
    unfold removeEndAnchored
    split
    · exact List.nil_sublist _
    · exact ih.cons₂ c

theorem removeEndCtx_sublist (check : Option Char → Str → Bool) :
    ∀ (s : Str) (prev : Option Char), List.Sublist (removeEndCtx check prev s) s := by
  intro s
  induction s with
  | nil => intro _; exact List.Sublist.refl []
  | cons c rest ih =>
    intro prev
    unfold removeEndCtx
    split
    · exact List.nil_sublist _
    · exact (ih (some c)).cons₂ c

theorem tryKeywords_sublist (kws : List Str) (v : Str) (u : Str)
    (h : tryKeywords kws v = some u) : List.Sublist u v := by
  induction kws with
  | nil => simp [tryKeywords] at h
  | cons kw rest ih =>
    unfold tryKeywords at h
    split at h
    · cases h
      exact List.drop_sublist _ _
    · exact ih h

theorem bracketTagMatch_sublist (t keep : Str) (h : bracketTagMatch t = some keep) :
    List.Sublist keep t := by
  unfold bracketTagMatch at h
  split at h
  · cases h
  · rename_i c tail
    split at h
    · split at h
      · cases h
      · rename_i b v heq
        split at h
        · split at h
          · cases h
          · cases h
          · rename_i b2 w htry
            split at h
            · split at h
              · cases h
                have h1 : List.Sublist (b2 :: keep) v := tryKeywords_sublist _ _ _ htry
                have h2 : List.Sublist (b :: v) (c :: tail) := by
                  rw [← heq]
                  exact List.dropWhile_sublist _
                exact (((List.Sublist.refl keep).cons b2).trans h1).trans
                  (((List.Sublist.refl v).cons b).trans h2)
              · cases h
            · cases h
        · cases h
    · cases h

theorem removeSpanEnd_sublist (m : Str → Option Str)
    (hm : ∀ t keep, m t = some keep → List.Sublist keep t) :
    ∀ s : Str, List.Sublist (removeSpanEnd m s) s := by
  intro s
  induction s with
  | nil => exact List.Sublist.refl []
  | cons c rest ih =>
    unfold removeSpanEnd
    split
    · rename_i keep hkeep
      exact hm _ _ hkeep
    · exact ih.cons₂ c

theorem collapseGo_mem : ∀ (fuel : Nat) (s : Str) (c : Char),
    c ∈ collapseGo fuel s → c ∈ s ∨ c = ' ' := by
  intro fuel
  induction fuel with
  | zero => intro s c h; rcases s with _ | ⟨a, t⟩ <;> exact Or.inl h
  | succ n ih =>
    intro s c h
    rcases s with _ | ⟨a, t⟩
    · exact Or.inl h
    · rcases t with _ | ⟨b, rest⟩
      · exact Or.inl h
      · unfold collapseGo at h
        split at h
        · rcases List.mem_cons.mp h with rfl | h2
          · exact Or.inr rfl
          · rcases ih _ _ h2 with h3 | h3
            · exact Or.inl (List.mem_cons_of_mem a (List.mem_cons_of_mem b
                ((List.dropWhile_sublist _).subset h3)))
            · exact Or.inr h3
        · rcases List.mem_cons.mp h with rfl | h2
          · exact Or.inl (List.mem_cons_self c (b :: rest))
          · rcases ih _ _ h2 with h3 | h3
            · exact Or.inl (List.mem_cons_of_mem a h3)
            · exact Or.inr h3

theorem cleanThroughTag_sublist (s : Str) : List.Sublist (cleanThroughTag s) s := by
  unfold cleanThroughTag asteriskSub
  refine ((removeSpanEnd_sublist bracketTagMatch bracketTagMatch_sublist _).trans ?_)
  refine ((removeEndAnchored_sublist bracketTailCheck _).trans ?_)
  refine ((removeEndAnchored_sublist parenMeta2Check _).trans ?_)
  refine ((removeEndAnchored_sublist parenMeta1Check _).trans ?_)
  refine ((asteriskGo_sublist _ _).trans ?_)
  refine ((pyStrip_sublist _).trans ?_)
  refine ((stripSide_sublist _).trans ?_)
  exact (stripNum2_sublist _).trans (stripNum1_sublist _)

theorem clean_line_mem (s : Str) (c : Char) (h : c ∈ clean_line s) : c ∈ s ∨ c = ' ' := by
  unfold clean_line at h
  split at h
  · simp at h
  · split at h
    · simp at h
    · split at h
      · simp at h
      · rcases collapseGo_mem _ _ _ ((pyStrip_sublist _).subset h) with h1 | h1
        · have h2 := (removeEndCtx_sublist layoutWordCheck _ none).subset h1
          have h3 := (cleanThroughTag_sublist _).subset h2
          exact Or.inl ((pyStrip_sublist _).subset h3)
        · exact Or.inr h1

theorem sepChar_fix_of_sep (c : Char) : sepChar (sepChar c) = sepChar c := by
  unfold sepChar
  split_ifs <;> simp_all

theorem map_id_of_mem {α : Type} {f : α → α} :
    ∀ {l : List α}, (∀ c ∈ l, f c = c) → l.map f = l := by
  intro l
  induction l with
  | nil => intro _; rfl
  | cons a t ih =>
    intro h
    simp only [List.map_cons]
    rw [h a (List.mem_cons_self a t), ih (fun c hc => h c (List.mem_cons_of_mem a hc))]

theorem sepChar_fix_of_mem_normalized (x : Str) (c : Char)
    (h : c ∈ normalize_separators x) : sepChar c = c := by
  rcases List.mem_map.mp h with ⟨d, _, rfl⟩
  exact sepChar_fix_of_sep d

/-- Re-normalizing an already-normalized line only re-runs the cleaning
stage: the separator pass is the identity on cleaned output (cleaning
introduces no non-ASCII separator characters). -/
theorem normalize_separators_clean_normalized (x : Str) :
    normalize_separators (clean_line (normalize_separators x))
      = clean_line (normalize_separators x) := by
  apply map_id_of_mem
  intro c hc
  rcases clean_line_mem _ _ hc with h1 | h1
  · exact sepChar_fix_of_mem_normalized x c h1
  · subst h1; rfl

/-- C2 (amended): line normalization is not idempotent, but a second
normalization coincides with a second run of the cleaning stage alone:
`normalize (normalize x) = clean_line (normalize x)` for every input. -/
theorem normalizeLine_twice (x : Str) :
    normalizeLine (normalizeLine x) = clean_line (normalizeLine x) := by
  unfold normalizeLine
  rw [normalize_separators_clean_normalized]

/-- C2 counterexample: the claimed idempotence fails on `"1 2 3"` — one
normalization strips the leading bare integer giving `"2 3"`, and a
second normalization strips again, giving `"3"`. -/
theorem normalizeLine_not_idempotent :
    normalizeLine (normalizeLine ("1 2 3".toList)) ≠ normalizeLine ("1 2 3".toList)
      ∧ normalizeLine ("1 2 3".toList) = "2 3".toList
      ∧ normalizeLine (normalizeLine ("1 2 3".toList)) = "3".toList := by
  refine ⟨?_, by decide, by decide⟩
  decide

/-- Python `str.rstrip()`. -/
def pyRStrip (s : Str) : Str := (s.reverse.dropWhile isPySpace).reverse

/-- Python `str.rstrip("*")`. -/
def rstripStar (s : Str) : Str := (s.reverse.dropWhile (· = '*')).reverse

/-- Numeric value of an ASCII digit. -/
def dval (c : Char) : Nat := c.toNat - '0'.toNat

/-- Tail of the duration pattern after the minutes: `:(\d{2})\s*$`. -/
def durColonTail : Str → Option Nat
  | b :: c :: d :: rest =>
    if b = ':' ∧ isDigitCh c ∧ isDigitCh d ∧ rest.all isPySpace
    then some (10 * dval c + dval d) else none
  | _ => none

/-- Match of `(\d{1,2}):(\d{2})\s*$` starting at the head of `t` (greedy:
two minute digits tried before one). Returns (minutes, seconds). -/
def durAtHead : Str → Option (Nat × Nat)
  | [] => none
  | a :: rest =>
    if isDigitCh a then
      match rest with
      | [] => none
      | b :: r2 =>
        if isDigitCh b then
          match durColonTail r2 with
          | some secs => some (10 * dval a + dval b, secs)
          | none =>
            match durColonTail rest with
            | some secs => some (dval a, secs)
            | none => none
        else
          match durColonTail rest with
          | some secs => some (dval a, secs)
          | none => none
    else none

/-- `re.search(r"(\d{1,2}):(\d{2})\s*$", line)`: leftmost match; returns
the prefix before the match together with the two captures. -/
def durSearch : Str → Option (Str × Nat × Nat)
  | [] => none
  | c :: rest =>
    match durAtHead (c :: rest) with
    | some (m, s) => some ([], m, s)
    | none => (durSearch rest).map (fun r => (c :: r.1, r.2.1, r.2.2))

/-- `re.search(r"\d{1,2}:\d{2}", line)` as a Boolean: some position holds
digit, colon, digit, digit. -/
def hasTimePattern : Str → Bool
  | [] => false
  | a :: rest =>
    (match rest with
     | b :: c :: d :: _ => isDigitCh a ∧ b = ':' ∧ isDigitCh c ∧ isDigitCh d
     | _ => false) || hasTimePattern rest

/-- `re.match(r"^\d{1,2}:\d{2}$", part)` (with the `$`-before-final-newline
case; parts are whitespace-stripped so it cannot arise, but is kept for
faithfulness). -/
def isDurToken : Str → Bool
  | [a, b, c, d] => isDigitCh a ∧ b = ':' ∧ isDigitCh c ∧ isDigitCh d
  | [a, b, c, d, e] =>
    (isDigitCh a ∧ isDigitCh b ∧ c = ':' ∧ isDigitCh d ∧ isDigitCh e) ∨
    (isDigitCh a ∧ b = ':' ∧ isDigitCh c ∧ isDigitCh d ∧ e = '\n')
  | [a, b, c, d, e, f] =>
    isDigitCh a ∧ isDigitCh b ∧ c = ':' ∧ isDigitCh d ∧ isDigitCh e ∧ f = '\n'
  | _ => false

/-- `re.match(r"^\d+$", part)` on a stripped part. -/
def isAllDigits (t : Str) : Bool := ¬ t.isEmpty && t.all isDigitCh

/-- Does `sep` occur as a literal prefix of `t`? -/
def strStarts : Str → Str → Bool
  | [], _ => true
  | _ :: _, [] => false
  | a :: as, b :: bs => a = b && strStarts as bs

/-- Python `s.split(sep, 1)` for non-empty `sep`: the first occurrence,
or `none` when `sep` does not occur. -/
def splitFirst (sep : Str) : Str → Option (Str × Str)
  | [] => none
  | c :: rest =>
    if strStarts sep (c :: rest) then some ([], (c :: rest).drop sep.length)
    else (splitFirst sep rest).map (fun p => (c :: p.1, p.2))

/-- Python `sep in s` for non-empty `sep`. -/
def containsSub (sep : Str) (s : Str) : Bool := (splitFirst sep s).isSome

/-- Python `s.split("\t")` (keeps empty fields). -/
def splitAllTab : Str → List Str
  | [] => [[]]
  | c :: rest =>
    if c = '\t' then [] :: splitAllTab rest
    else
      match splitAllTab rest with
      | h :: t => (c :: h) :: t
      | [] => [[c]]

/-- Python `" ".join(parts)`. -/
def joinSpace : List Str → Str
  | [] => []
  | [x] => x
  | x :: rest => x ++ ' ' :: joinSpace rest

/-- `re.sub(r"^\d+\s+", "", s.strip())` (leading bare track number). -/
def stripLeadNum (s : Str) : Str :=
  let t := pyStrip s
  match t.takeWhile isDigitCh with
  | [] => t
  | _ :: _ =>
    match t.dropWhile isDigitCh with
    | c :: _ => if isPySpace c then (t.dropWhile isDigitCh).dropWhile isPySpace else t
    | [] => t

/-- Last character test `first_part.endswith("-")`. -/
def endsDash (s : Str) : Bool := s.getLast? = some '-'

/-- The tab-separated branch of `parse_artist_title_duration`
(`app.py` lines 214-268), producing (artist, title). -/
def parseTab (original_line inferred_artist : Str) : Str × Str :=
  let parts0 := ((splitAllTab original_line).map pyStrip).filter (¬ ·.isEmpty)
  match parts0 with
  | [] => ([], [])
  | _ :: _ =>
    let parts1 :=
      match parts0.getLast? with
      | some lastp => if isDurToken lastp then parts0.dropLast else parts0
      | none => parts0
    let pr2 :=
      match parts1 with
      | p0 :: rest => if isAllDigits p0 then (true, rest) else (false, parts1)
      | [] => (false, ([] : List Str))
    let is_tn := pr2.1
    match pr2.2 with
    | first :: second :: rest3 =>
      if containsSub [' ', '-', ' '] first ∨ endsDash first then
        if endsDash first then
          (pyStrip first.dropLast, pyStrip (joinSpace (second :: rest3)))
        else
          match splitFirst [' ', '-', ' '] first with
          | some (a, b) => (pyStrip a, pyStrip (b ++ ' ' :: joinSpace (second :: rest3)))
          | none => (pyStrip first, pyStrip (joinSpace (second :: rest3)))
      else (pyStrip first, pyStrip (joinSpace (second :: rest3)))
    | [p] =>
      if is_tn then
        ((if ¬ inferred_artist.isEmpty then inferred_artist else []), pyStrip p)
      else if containsSub [' ', '-', ' '] p ∨ containsSub ['-'] p then ([], [])
      else ((if ¬ inferred_artist.isEmpty then inferred_artist else []), pyStrip p)
    | [] => ([], [])

/-- The untabbed branch of `parse_artist_title_duration` (`app.py`
lines 269-305), producing (artist, title). `nline2` is the
separator-normalized line with the trailing duration removed. -/
def parseNoTab (nline2 original_line inferred_artist : Str) : Str × Str :=
  let line2 := stripLeadNum nline2
  let at1 :=
    match splitFirst [' ', '-', ' '] line2 with
    | some (a, b) => (pyStrip a, pyStrip b)
    | none =>
      match splitFirst ['-'] line2 with
      | some (a, b) => (pyStrip a, pyStrip b)
      | none =>
        if containsSub [':'] line2 ∧ ¬ hasTimePattern line2 then
          match splitFirst [':'] line2 with
          | some (a, b) => (pyStrip a, pyStrip b)
          | none => ([], pyStrip line2)
        else ([], pyStrip line2)
  let artist2 := pyStrip (rstripStar at1.1)
  if artist2.isEmpty ∧ ¬ inferred_artist.isEmpty then
    if at1.2.isEmpty ∨ at1.2 = line2 then
      let t2 :=
        match durSearch original_line with
        | some (pre, _, _) => pyRStrip pre
        | none => original_line
      (inferred_artist, stripLeadNum t2)
    else (inferred_artist, at1.2)
  else (artist2, at1.2)

/-- `app.py` `parse_artist_title_duration(line, inferred_artist)`:
returns (artist, title, duration in seconds if present). -/
def parse_artist_title_duration (line : Str) (inferred_artist : Str) :
    Str × Str × Option Nat :=
  let original_line := pyStrip line
  let nline := normalize_separators line
  let dres :=
    match durSearch nline with
    | some (pre, m, s) => (pyRStrip pre, some (m * 60 + s))
    | none => (nline, none)
  let ares :=
    if original_line.any (· = '\t') then parseTab original_line inferred_artist
    else parseNoTab dres.1 original_line inferred_artist
  let title1 := pyStrip ares.2
  if ares.1.isEmpty ∧ inferred_artist.isEmpty then ([], title1, dres.2)
  else if ares.1.isEmpty then (inferred_artist, title1, dres.2)
  else (ares.1, title1, dres.2)

/-- The loop of `parse_lines_with_artist_inference`, carrying
`last_artist`. -/
def parseLinesGo : List Str → Str → List (Str × Str × Option Nat)
  | [], _ => []
  | l :: rest, last =>
    let r := parse_artist_title_duration l last
    r :: parseLinesGo rest (if ¬ r.1.isEmpty then r.1 else last)

/-- `app.py` `parse_lines_with_artist_inference(lines)`. -/
def parse_lines_with_artist_inference (lines : List Str) :
    List (Str × Str × Option Nat) :=
  parseLinesGo lines []

/-- The most recent non-empty artist among already-produced entries,
starting from `init` (the fold the carried state performs). -/
def lastArtistOf (rs : List (Str × Str × Option Nat)) (init : Str) : Str :=
  rs.foldl (fun acc r => if ¬ r.1.isEmpty then r.1 else acc) init

theorem lastArtistOf_cons (r : Str × Str × Option Nat) (tl : List (Str × Str × Option Nat))
    (init : Str) :
    lastArtistOf (r :: tl) init = lastArtistOf tl (if ¬ r.1.isEmpty then r.1 else init) := rfl

theorem parseLinesGo_get (lines : List Str) : ∀ (init : Str) (i : Nat),
    (parseLinesGo lines init)[i]?
      = (lines[i]?).map (fun l => parse_artist_title_duration l
          (lastArtistOf ((parseLinesGo lines init).take i) init)) := by
  induction lines with
  | nil => intro init i; simp [parseLinesGo]
  | cons l rest ih =>
    intro init i
    cases i with
    | zero => simp [parseLinesGo, lastArtistOf]
    | succ n =>
      have hgo : parseLinesGo (l :: rest) init
          = parse_artist_title_duration l init ::
            parseLinesGo rest (if ¬ (parse_artist_title_duration l init).1.isEmpty
              then (parse_artist_title_duration l init).1 else init) := rfl
      rw [hgo]
      simp only [List.getElem?_cons_succ, List.take_succ_cons, lastArtistOf_cons]
      exact ih _ n

/-- C4: each parsed entry is the parse of its own line with, as context
artist, the most recently produced non-empty artist of the earlier
entries (the only state the loop carries); on the concrete input the
second line, which yields no artist of its own, inherits "Miles Davis"
and parses to title "All Blues" with duration 693 seconds. -/
theorem artist_inference_carries_forward :
    (∀ (lines : List Str) (i : Nat),
      (parse_lines_with_artist_inference lines)[i]?
        = (lines[i]?).map (fun l => parse_artist_title_duration l
            (lastArtistOf ((parse_lines_with_artist_inference lines).take i) []))) ∧
    parse_lines_with_artist_inference
        ["Miles Davis - So What 9:22".toList, "All Blues 11:33".toList]
      = [("Miles Davis".toList, "So What".toList, some 562),
         ("Miles Davis".toList, "All Blues".toList, some 693)] ∧
    (parse_artist_title_duration ("All Blues 11:33".toList) []).1 = [] := by
  refine ⟨fun lines i => parseLinesGo_get lines [] i, by decide, by decide⟩

/-- Ascending list of the indices at which `c` occurs in `b` (difflib
`b2j` entry before junk handling; insertion order is index order). -/
def indicesOf (b : Str) (c : Char) : List Nat :=
  (List.range b.length).filter (fun i => b[i]? = some c)

/-- difflib autojunk: with no explicit junk predicate, an element is
"popular" when `len(b) >= 200` and it occurs more than `len(b)//100 + 1`
times; popular elements are deleted from `b2j` (but are not in `bjunk`,
so the non-junk extension loops still cross them). -/
def isPopular (b : Str) (c : Char) : Bool :=
  200 ≤ b.length && b.length / 100 + 1 < (indicesOf b c).length

/-- difflib `self.b2j` after autojunk. -/
def b2j (b : Str) (c : Char) : List Nat :=
  if isPopular b c then [] else indicesOf b c

/-- Pointwise update of a `Nat`-valued map (the dict assignment
`newj2len[j] = k`), cast-free so that kernel reduction can evaluate it. -/
def updNat (f : Nat → Nat) (key v : Nat) : Nat → Nat :=
  fun x => if x = key then v else f x

theorem updNat_same (f : Nat → Nat) (key v : Nat) : updNat f key v key = v := by
  simp [updNat]

theorem updNat_noteq {x key : Nat} (h : x ≠ key) (f : Nat → Nat) (v : Nat) :
    updNat f key v x = f x := by
  simp [updNat, h]

/-- The chained run length `k = j2len.get(j-1, 0) + 1` of the
`find_longest_match` inner loop (a dict holds no negative keys, whence
the explicit `j = 0` case). -/
def flmK (j2prev : Nat → Nat) (j : Nat) : Nat :=
  (if j = 0 then 0 else j2prev (j - 1)) + 1

/-- One row of the `find_longest_match` dynamic program: iterate the
ascending occurrence list of `a[i]`, with the `continue` (below `blo`)
and `break` (at or above `bhi`) of the source, chaining run lengths
through the previous row (`j2len.get(j-1, 0) + 1`; a dict holds no
negative keys, whence the explicit `j = 0` case). -/
def flmRow (blo bhi i : Nat) (j2prev : Nat → Nat) :
    List Nat → (Nat → Nat) → Nat × Nat × Nat → ((Nat → Nat) × (Nat × Nat × Nat))
  | [], newj, best => (newj, best)
  | j :: rest, newj, best =>
    if j < blo then flmRow blo bhi i j2prev rest newj best
    else if bhi ≤ j then (newj, best)
    else
      flmRow blo bhi i j2prev rest (updNat newj j (flmK j2prev j))
        (if best.2.2 < flmK j2prev j then
          (i + 1 - flmK j2prev j, j + 1 - flmK j2prev j, flmK j2prev j)
        else best)

/-- The row loop `for i in range(alo, ahi)` of `find_longest_match`,
structurally on the remaining row count. -/
def flmRows (a : Str) (bj : Char → List Nat) (blo bhi : Nat) :
    Nat → Nat → (Nat → Nat) → Nat × Nat × Nat → Nat × Nat × Nat
  | _, 0, _, best => best
  | i, cnt + 1, j2prev, best =>
    let st := flmRow blo bhi i j2prev (bj (a.getD i ' ')) (fun _ => 0) best
    flmRows a bj blo bhi (i + 1) cnt st.1 st.2

/-- In-range character equality `a[x] == b[y]` (calls are always
in range; out of range yields `false`). -/
def chEq (a b : Str) (x y : Nat) : Bool :=
  match a[x]?, b[y]? with
  | some u, some v => u = v
  | _, _ => false

/-- The backward extension loop of `find_longest_match` (with no junk
predicate, `isbjunk` is constantly false, so the condition is plain
character equality). Fuel-bounded by the start index. -/
def extendBack (a b : Str) (alo blo : Nat) : Nat → Nat × Nat × Nat → Nat × Nat × Nat
  | 0, st => st
  | fuel + 1, (bi, bj2, bs) =>
    if alo < bi ∧ blo < bj2 ∧ chEq a b (bi - 1) (bj2 - 1) then
      extendBack a b alo blo fuel (bi - 1, bj2 - 1, bs + 1)
    else (bi, bj2, bs)

/-- The forward extension loop of `find_longest_match`. -/
def extendFwd (a b : Str) (ahi bhi : Nat) : Nat → Nat × Nat × Nat → Nat × Nat × Nat
  | 0, st => st
  | fuel + 1, (bi, bj2, bs) =>
    if bi + bs < ahi ∧ bj2 + bs < bhi ∧ chEq a b (bi + bs) (bj2 + bs) then
      extendFwd a b ahi bhi fuel (bi, bj2, bs + 1)
    else (bi, bj2, bs)

/-- difflib `SequenceMatcher.find_longest_match(alo, ahi, blo, bhi)`:
the dynamic program, then the two non-junk extension loops (the two
junk extension loops never run: `bjunk` is empty with no junk
predicate). -/
def find_longest_match (a b : Str) (bj : Char → List Nat) (alo ahi blo bhi : Nat) :
    Nat × Nat × Nat :=
  let dp := flmRows a bj blo bhi alo (ahi - alo) (fun _ => 0) (alo, blo, 0)
  extendFwd a b ahi bhi ahi (extendBack a b alo blo dp.1 dp)

/-- Total size of the matching blocks of `get_matching_blocks` over an
interval (the queue recursion; only the size sum matters for `ratio`,
and the final sort/merge of adjacent blocks preserves it). Fuel-bounded:
each recursive interval is strictly smaller. -/
def matchesSum (a b : Str) (bj : Char → List Nat) :
    Nat → Nat → Nat → Nat → Nat → Nat
  | 0, _, _, _, _ => 0
  | fuel + 1, alo, ahi, blo, bhi =>
    if (find_longest_match a b bj alo ahi blo bhi).2.2 = 0 then 0
    else
      (find_longest_match a b bj alo ahi blo bhi).2.2 +
      (if alo < (find_longest_match a b bj alo ahi blo bhi).1 ∧
          blo < (find_longest_match a b bj alo ahi blo bhi).2.1 then
        matchesSum a b bj fuel alo (find_longest_match a b bj alo ahi blo bhi).1
          blo (find_longest_match a b bj alo ahi blo bhi).2.1 else 0) +
      (if (find_longest_match a b bj alo ahi blo bhi).1
            + (find_longest_match a b bj alo ahi blo bhi).2.2 < ahi ∧
          (find_longest_match a b bj alo ahi blo bhi).2.1
            + (find_longest_match a b bj alo ahi blo bhi).2.2 < bhi then
        matchesSum a b bj fuel
          ((find_longest_match a b bj alo ahi blo bhi).1
            + (find_longest_match a b bj alo ahi blo bhi).2.2) ahi
          ((find_longest_match a b bj alo ahi blo bhi).2.1
            + (find_longest_match a b bj alo ahi blo bhi).2.2) bhi else 0)

/-- difflib `SequenceMatcher(None, a, b).ratio()`:
`2*M / (len(a)+len(b))`, and `1.0` when both are empty. -/
def ratioVal (a b : Str) : ℚ :=
  if a.length + b.length = 0 then 1
  else (2 * (matchesSum a b (b2j b) (a.length + b.length + 1) 0 a.length 0 b.length) : ℚ)
        / (a.length + b.length)

/-- `app.py` `similarity(a, b)`: lower-case, strip, `0.0` when either is
then empty, else the `SequenceMatcher` ratio. -/
def similarity (a b : Str) : ℚ :=
  if (pyStrip (pyLower a)).isEmpty ∨ (pyStrip (pyLower b)).isEmpty then 0
  else ratioVal (pyStrip (pyLower a)) (pyStrip (pyLower b))

/-- First co-credit separator (of `re_split_multi`'s pattern
`,|&|feat\.|ft\.|featuring`) matching at the head; returns its length. -/
def firstSep (t : Str) : Option Nat :=
  if strStarts [','] t then some 1
  else if strStarts ['&'] t then some 1
  else if strStarts ['f', 'e', 'a', 't', '.'] t then some 5
  else if strStarts ['f', 't', '.'] t then some 3
  else if strStarts ['f', 'e', 'a', 't', 'u', 'r', 'i', 'n', 'g'] t then some 9
  else none

/-- `app.py` `re_split_multi(s, seps)` at the call site's separator list:
`re.split` scanning left to right. Fuel-bounded by the string length. -/
def re_split_multi : Nat → Str → List Str
  | 0, s => [s]
  | _ + 1, [] => [[]]
  | fuel + 1, c :: rest =>
    match firstSep (c :: rest) with
    | some k => [] :: re_split_multi fuel ((c :: rest).drop k)
    | none =>
      match re_split_multi fuel rest with
      | h :: t => (c :: h) :: t
      | [] => [[c]]

/-- `app.py` `best_artist_similarity(requested, candidate_artists)`. -/
def best_artist_similarity (requested : Str) (candidate_artists : List Str) : ℚ :=
  if requested.isEmpty then 0
  else
    candidate_artists.foldl (fun best cand =>
      (((re_split_multi (pyLower requested).length (pyLower requested)).map pyStrip).filter
          (¬ ·.isEmpty)).foldl
        (fun b r => max b (similarity r (pyStrip (pyLower cand)))) best) 0

theorem flmRow_inv (alo blo bhi i : Nat) (j2prev : Nat → Nat) (hia : alo ≤ i)
    (hm : ∀ j, j2prev j ≤ i - alo ∧ j2prev j ≤ j + 1 - blo) :
    ∀ (js : List Nat) (newj : Nat → Nat) (best : Nat × Nat × Nat),
      (∀ j, newj j ≤ i + 1 - alo ∧ newj j ≤ j + 1 - blo) →
      (alo ≤ best.1 ∧ blo ≤ best.2.1 ∧ best.1 + best.2.2 ≤ i + 1 ∧
        best.2.1 + best.2.2 ≤ bhi) →
      (∀ j, (flmRow blo bhi i j2prev js newj best).1 j ≤ i + 1 - alo ∧
            (flmRow blo bhi i j2prev js newj best).1 j ≤ j + 1 - blo) ∧
      (alo ≤ (flmRow blo bhi i j2prev js newj best).2.1 ∧
       blo ≤ (flmRow blo bhi i j2prev js newj best).2.2.1 ∧
       (flmRow blo bhi i j2prev js newj best).2.1
         + (flmRow blo bhi i j2prev js newj best).2.2.2 ≤ i + 1 ∧
       (flmRow blo bhi i j2prev js newj best).2.2.1
         + (flmRow blo bhi i j2prev js newj best).2.2.2 ≤ bhi) := by
  intro js
  induction js with
  | nil => intro newj best hn hb; exact ⟨hn, hb⟩
  | cons j rest ih =>
    intro newj best hn hb
    show (∀ j', (flmRow blo bhi i j2prev (j :: rest) newj best).1 j' ≤ _ ∧ _) ∧ _
    unfold flmRow
    split
    · exact ih newj best hn hb
    · split
      · exact ⟨hn, hb⟩
      · rename_i hblo hbhi
        push_neg at hblo hbhi
        have hk1 : flmK j2prev j ≤ i + 1 - alo := by
          unfold flmK
          rcases Nat.eq_zero_or_pos j with rfl | hj
          · simp; omega
          · have := (hm (j - 1)).1
            split
            · omega
            · omega
        have hk2 : flmK j2prev j ≤ j + 1 - blo := by
          unfold flmK
          rcases Nat.eq_zero_or_pos j with rfl | hj
          · simp; omega
          · have := (hm (j - 1)).2
            split
            · omega
            · omega
        apply ih
        · intro j'
          by_cases hj' : j' = j
          · subst hj'
            rw [updNat_same]
            exact ⟨hk1, hk2⟩
          · rw [updNat_noteq hj']
            exact hn j'
        · split
          · rename_i hlt
            refine ⟨?_, ?_, ?_, ?_⟩
            · show alo ≤ i + 1 - flmK j2prev j
              omega
            · show blo ≤ j + 1 - flmK j2prev j
              omega
            · show i + 1 - flmK j2prev j + flmK j2prev j ≤ i + 1
              omega
            · show j + 1 - flmK j2prev j + flmK j2prev j ≤ bhi
              omega
          · exact hb

theorem flmRows_inv (a : Str) (bj : Char → List Nat) (blo bhi : Nat) :
    ∀ (cnt i : Nat) (j2prev : Nat → Nat) (best : Nat × Nat × Nat) (alo : Nat),
      alo ≤ i →
      (∀ j, j2prev j ≤ i - alo ∧ j2prev j ≤ j + 1 - blo) →
      (alo ≤ best.1 ∧ blo ≤ best.2.1 ∧ best.1 + best.2.2 ≤ i ∧
        best.2.1 + best.2.2 ≤ bhi) →
      (alo ≤ (flmRows a bj blo bhi i cnt j2prev best).1 ∧
       blo ≤ (flmRows a bj blo bhi i cnt j2prev best).2.1 ∧
       (flmRows a bj blo bhi i cnt j2prev best).1
         + (flmRows a bj blo bhi i cnt j2prev best).2.2 ≤ i + cnt ∧
       (flmRows a bj blo bhi i cnt j2prev best).2.1
         + (flmRows a bj blo bhi i cnt j2prev best).2.2 ≤ bhi) := by
  intro cnt
  induction cnt with
  | zero =>
    intro i j2prev best alo hia hm hb
    simpa [flmRows] using hb
  | succ n ih =>
    intro i j2prev best alo hia hm hb
    have hrow := flmRow_inv alo blo bhi i j2prev hia hm (bj (a.getD i ' '))
      (fun _ => 0) best (by intro j; exact ⟨Nat.zero_le _, Nat.zero_le _⟩)
      ⟨hb.1, hb.2.1, by omega, hb.2.2.2⟩
    have heq : flmRows a bj blo bhi i (n + 1) j2prev best
        = flmRows a bj blo bhi (i + 1) n
            (flmRow blo bhi i j2prev (bj (a.getD i ' ')) (fun _ => 0) best).1
            (flmRow blo bhi i j2prev (bj (a.getD i ' ')) (fun _ => 0) best).2 := rfl
    rw [heq]
    have hres := ih (i + 1)
      (flmRow blo bhi i j2prev (bj (a.getD i ' ')) (fun _ => 0) best).1
      (flmRow blo bhi i j2prev (bj (a.getD i ' ')) (fun _ => 0) best).2 alo
      (by omega)
      (by intro j; have := hrow.1 j; omega)
      ⟨hrow.2.1, hrow.2.2.1, hrow.2.2.2.1, hrow.2.2.2.2⟩
    refine ⟨hres.1, hres.2.1, ?_, hres.2.2.2⟩
    have := hres.2.2.1
    omega

theorem extendBack_inv (a b : Str) (alo blo ahi bhi : Nat) :
    ∀ (fuel : Nat) (st : Nat × Nat × Nat),
      alo ≤ st.1 → blo ≤ st.2.1 → st.1 + st.2.2 ≤ ahi → st.2.1 + st.2.2 ≤ bhi →
      (alo ≤ (extendBack a b alo blo fuel st).1 ∧
       blo ≤ (extendBack a b alo blo fuel st).2.1 ∧
       (extendBack a b alo blo fuel st).1 + (extendBack a b alo blo fuel st).2.2 ≤ ahi ∧
       (extendBack a b alo blo fuel st).2.1 + (extendBack a b alo blo fuel st).2.2 ≤ bhi) := by
  intro fuel
  induction fuel with
  | zero => intro st h1 h2 h3 h4; exact ⟨h1, h2, h3, h4⟩
  | succ n ih =>
    intro st h1 h2 h3 h4
    rcases st with ⟨bi, bj2, bs⟩
    have h1' : alo ≤ bi := h1
    have h2' : blo ≤ bj2 := h2
    have h3' : bi + bs ≤ ahi := h3
    have h4' : bj2 + bs ≤ bhi := h4
    unfold extendBack
    split
    · rename_i hcond
      have hc1 : alo < bi := hcond.1
      have hc2 : blo < bj2 := hcond.2.1
      exact ih (bi - 1, bj2 - 1, bs + 1) (show alo ≤ bi - 1 by omega)
        (show blo ≤ bj2 - 1 by omega) (show bi - 1 + (bs + 1) ≤ ahi by omega)
        (show bj2 - 1 + (bs + 1) ≤ bhi by omega)
    · exact ⟨h1, h2, h3, h4⟩

theorem extendFwd_inv (a b : Str) (ahi bhi : Nat) :
    ∀ (fuel : Nat) (st : Nat × Nat × Nat),
      st.1 + st.2.2 ≤ ahi → st.2.1 + st.2.2 ≤ bhi →
      ((extendFwd a b ahi bhi fuel st).1 = st.1 ∧
       (extendFwd a b ahi bhi fuel st).2.1 = st.2.1 ∧
       (extendFwd a b ahi bhi fuel st).1 + (extendFwd a b ahi bhi fuel st).2.2 ≤ ahi ∧
       (extendFwd a b ahi bhi fuel st).2.1 + (extendFwd a b ahi bhi fuel st).2.2 ≤ bhi) := by
  intro fuel
  induction fuel with
  | zero => intro st h3 h4; exact ⟨rfl, rfl, h3, h4⟩
  | succ n ih =>
    intro st h3 h4
    rcases st with ⟨bi, bj2, bs⟩
    unfold extendFwd
    split
    · rename_i hcond
      have hc1 : bi + bs < ahi := hcond.1
      have hc2 : bj2 + bs < bhi := hcond.2.1
      exact ih (bi, bj2, bs + 1) (show bi + (bs + 1) ≤ ahi by omega)
        (show bj2 + (bs + 1) ≤ bhi by omega)
    · exact ⟨rfl, rfl, h3, h4⟩

theorem flm_bounds (a b : Str) (bj : Char → List Nat) (alo ahi blo bhi : Nat)
    (ha : alo ≤ ahi) (hbb : blo ≤ bhi) :
    alo ≤ (find_longest_match a b bj alo ahi blo bhi).1 ∧
    blo ≤ (find_longest_match a b bj alo ahi blo bhi).2.1 ∧
    (find_longest_match a b bj alo ahi blo bhi).1
      + (find_longest_match a b bj alo ahi blo bhi).2.2 ≤ ahi ∧
    (find_longest_match a b bj alo ahi blo bhi).2.1
      + (find_longest_match a b bj alo ahi blo bhi).2.2 ≤ bhi := by
  unfold find_longest_match
  have hdp := flmRows_inv a bj blo bhi (ahi - alo) alo (fun _ => 0) (alo, blo, 0) alo
    le_rfl (by intro j; exact ⟨Nat.zero_le _, Nat.zero_le _⟩)
    ⟨le_rfl, le_rfl, show alo + 0 ≤ alo by omega, show blo + 0 ≤ bhi by omega⟩
  have hdp2 : alo ≤ (flmRows a bj blo bhi alo (ahi - alo) (fun _ => 0) (alo, blo, 0)).1 ∧
      blo ≤ (flmRows a bj blo bhi alo (ahi - alo) (fun _ => 0) (alo, blo, 0)).2.1 ∧
      (flmRows a bj blo bhi alo (ahi - alo) (fun _ => 0) (alo, blo, 0)).1
        + (flmRows a bj blo bhi alo (ahi - alo) (fun _ => 0) (alo, blo, 0)).2.2 ≤ ahi ∧
      (flmRows a bj blo bhi alo (ahi - alo) (fun _ => 0) (alo, blo, 0)).2.1
        + (flmRows a bj blo bhi alo (ahi - alo) (fun _ => 0) (alo, blo, 0)).2.2 ≤ bhi := by
    refine ⟨hdp.1, hdp.2.1, ?_, hdp.2.2.2⟩
    have := hdp.2.2.1
    omega
  have hback := extendBack_inv a b alo blo ahi bhi
    (flmRows a bj blo bhi alo (ahi - alo) (fun _ => 0) (alo, blo, 0)).1
    (flmRows a bj blo bhi alo (ahi - alo) (fun _ => 0) (alo, blo, 0))
    hdp2.1 hdp2.2.1 hdp2.2.2.1 hdp2.2.2.2
  have hfwd := extendFwd_inv a b ahi bhi ahi _ hback.2.2.1 hback.2.2.2
  refine ⟨?_, ?_, hfwd.2.2.1, hfwd.2.2.2⟩
  · rw [hfwd.1]; exact hback.1
  · rw [hfwd.2.1]; exact hback.2.1

theorem matchesSum_le (a b : Str) (bj : Char → List Nat) :
    ∀ (fuel alo ahi blo bhi : Nat), alo ≤ ahi → blo ≤ bhi →
      matchesSum a b bj fuel alo ahi blo bhi ≤ ahi - alo ∧
      matchesSum a b bj fuel alo ahi blo bhi ≤ bhi - blo := by
  intro fuel
  induction fuel with
  | zero => intro alo ahi blo bhi _ _; exact ⟨Nat.zero_le _, Nat.zero_le _⟩
  | succ n ih =>
    intro alo ahi blo bhi ha hb
    have hf := flm_bounds a b bj alo ahi blo bhi ha hb
    unfold matchesSum
    split
    · exact ⟨Nat.zero_le _, Nat.zero_le _⟩
    · have hleft : (if alo < (find_longest_match a b bj alo ahi blo bhi).1 ∧
          blo < (find_longest_match a b bj alo ahi blo bhi).2.1 then
            matchesSum a b bj n alo (find_longest_match a b bj alo ahi blo bhi).1
              blo (find_longest_match a b bj alo ahi blo bhi).2.1 else 0)
          ≤ (find_longest_match a b bj alo ahi blo bhi).1 - alo ∧
          (if alo < (find_longest_match a b bj alo ahi blo bhi).1 ∧
          blo < (find_longest_match a b bj alo ahi blo bhi).2.1 then
            matchesSum a b bj n alo (find_longest_match a b bj alo ahi blo bhi).1
              blo (find_longest_match a b bj alo ahi blo bhi).2.1 else 0)
          ≤ (find_longest_match a b bj alo ahi blo bhi).2.1 - blo := by
        split
        · rename_i hg
          exact ih alo _ blo _ (Nat.le_of_lt hg.1) (Nat.le_of_lt hg.2)
        · exact ⟨Nat.zero_le _, Nat.zero_le _⟩
      have hright : (if (find_longest_match a b bj alo ahi blo bhi).1
            + (find_longest_match a b bj alo ahi blo bhi).2.2 < ahi ∧
          (find_longest_match a b bj alo ahi blo bhi).2.1
            + (find_longest_match a b bj alo ahi blo bhi).2.2 < bhi then
            matchesSum a b bj n
              ((find_longest_match a b bj alo ahi blo bhi).1
                + (find_longest_match a b bj alo ahi blo bhi).2.2) ahi
              ((find_longest_match a b bj alo ahi blo bhi).2.1
                + (find_longest_match a b bj alo ahi blo bhi).2.2) bhi else 0)
          ≤ ahi - ((find_longest_match a b bj alo ahi blo bhi).1
                + (find_longest_match a b bj alo ahi blo bhi).2.2) ∧
          (if (find_longest_match a b bj alo ahi blo bhi).1
            + (find_longest_match a b bj alo ahi blo bhi).2.2 < ahi ∧
          (find_longest_match a b bj alo ahi blo bhi).2.1
            + (find_longest_match a b bj alo ahi blo bhi).2.2 < bhi then
            matchesSum a b bj n
              ((find_longest_match a b bj alo ahi blo bhi).1
                + (find_longest_match a b bj alo ahi blo bhi).2.2) ahi
              ((find_longest_match a b bj alo ahi blo bhi).2.1
                + (find_longest_match a b bj alo ahi blo bhi).2.2) bhi else 0)
          ≤ bhi - ((find_longest_match a b bj alo ahi blo bhi).2.1
                + (find_longest_match a b bj alo ahi blo bhi).2.2) := by
        split
        · rename_i hg
          exact ih _ ahi _ bhi (Nat.le_of_lt hg.1) (Nat.le_of_lt hg.2)
        · exact ⟨Nat.zero_le _, Nat.zero_le _⟩
      constructor
      · have := hleft.1
        have := hright.1
        omega
      · have := hleft.2
        have := hright.2
        omega

theorem ratioVal_nonneg (a b : Str) : 0 ≤ ratioVal a b := by
  unfold ratioVal
  split
  · norm_num
  · exact div_nonneg (by positivity) (by positivity)

theorem ratioVal_le_one (a b : Str) : ratioVal a b ≤ 1 := by
  unfold ratioVal
  split
  · norm_num
  · rename_i hT
    have hM := matchesSum_le a b (b2j b) (a.length + b.length + 1) 0 a.length 0 b.length
      (Nat.zero_le _) (Nat.zero_le _)
    have h2M : 2 * matchesSum a b (b2j b) (a.length + b.length + 1) 0 a.length 0 b.length
        ≤ a.length + b.length := by omega
    have hTpos : 0 < a.length + b.length := Nat.pos_of_ne_zero hT
    rw [div_le_one (by exact_mod_cast hTpos)]
    exact_mod_cast h2M

theorem similarity_nonneg (a b : Str) : 0 ≤ similarity a b := by
  unfold similarity
  split
  · norm_num
  · exact ratioVal_nonneg _ _

theorem similarity_le_one (a b : Str) : similarity a b ≤ 1 := by
  unfold similarity
  split
  · norm_num
  · exact ratioVal_le_one _ _

/-- Diagonal chain value of the self-match dynamic program at column `j`:
the length of the run of non-junked positions ending at `j` (0 when the
character at `j` was autojunked). -/
def dChain (a : Str) (bj : Char → List Nat) : Nat → Nat
  | 0 => if (bj (a.getD 0 ' ')).isEmpty then 0 else 1
  | j + 1 => if (bj (a.getD (j + 1) ' ')).isEmpty then 0 else dChain a bj j + 1

/-- Maximum diagonal chain value over rows `0..r-1`. -/
def maxD (a : Str) (bj : Char → List Nat) : Nat → Nat
  | 0 => 0
  | r + 1 => max (maxD a bj r) (dChain a bj r)

/-- Diagonal chain value of the previous row (0 for the first row). -/
def dPrev (a : Str) (bj : Char → List Nat) : Nat → Nat
  | 0 => 0
  | r + 1 => dChain a bj r

theorem mem_indicesOf {a : Str} {c : Char} {j : Nat} (h : j ∈ indicesOf a c) :
    j < a.length ∧ a[j]? = some c := by
  unfold indicesOf at h
  have h2 := List.mem_filter.mp h
  exact ⟨List.mem_range.mp h2.1, of_decide_eq_true h2.2⟩

theorem indicesOf_self_mem {a : Str} {j : Nat} (hj : j < a.length) :
    j ∈ indicesOf a (a.getD j ' ') := by
  unfold indicesOf
  refine List.mem_filter.mpr ⟨List.mem_range.mpr hj, decide_eq_true ?_⟩
  rw [List.getD_eq_getElem?_getD, List.getElem?_eq_getElem hj]
  rfl

theorem mem_b2j {a : Str} {c : Char} {j : Nat} (h : j ∈ b2j a c) :
    j < a.length ∧ a[j]? = some c := by
  unfold b2j at h
  split at h
  · simp at h
  · exact mem_indicesOf h

theorem getD_of_mem_b2j {a : Str} {c : Char} {j : Nat} (h : j ∈ b2j a c) :
    a.getD j ' ' = c := by
  have h2 := mem_b2j h
  rw [List.getD_eq_getElem?_getD, h2.2]
  rfl

theorem active_of_ne_nil {l : List Nat} (h : l ≠ []) : l.isEmpty = false := by
  cases l with
  | nil => exact absurd rfl h
  | cons x t => rfl

theorem ne_nil_of_mem {l : List Nat} {j : Nat} (h : j ∈ l) : l ≠ [] := by
  intro hnil
  rw [hnil] at h
  simp at h

theorem self_mem_b2j {a : Str} {r : Nat} (hr : r < a.length)
    (hact : (b2j a (a.getD r ' ')).isEmpty = false) :
    r ∈ b2j a (a.getD r ' ') := by
  unfold b2j at hact ⊢
  split at hact
  · simp at hact
  · rw [if_neg (by rename_i hcond; exact hcond)]
    exact indicesOf_self_mem hr

theorem b2j_pairwise (a : Str) (c : Char) : List.Pairwise (· < ·) (b2j a c) := by
  unfold b2j
  split
  · exact List.Pairwise.nil
  · exact (List.pairwise_lt_range a.length).filter _

theorem dChain_le (a : Str) (bj : Char → List Nat) : ∀ j, dChain a bj j ≤ j + 1 := by
  intro j
  induction j with
  | zero => unfold dChain; split <;> omega
  | succ n ih => unfold dChain; split <;> omega

theorem dChain_inactive {a : Str} {bj : Char → List Nat} {j : Nat}
    (h : (bj (a.getD j ' ')).isEmpty = true) : dChain a bj j = 0 := by
  cases j with
  | zero => unfold dChain; rw [if_pos h]
  | succ n => unfold dChain; rw [if_pos h]

theorem dChain_succ_active {a : Str} {bj : Char → List Nat} {j : Nat}
    (h : (bj (a.getD (j + 1) ' ')).isEmpty = false) :
    dChain a bj (j + 1) = dChain a bj j + 1 := by
  rw [show dChain a bj (j + 1)
      = if (bj (a.getD (j + 1) ' ')).isEmpty then 0 else dChain a bj j + 1 from rfl, h]
  simp

theorem dChain_zero_active {a : Str} {bj : Char → List Nat}
    (h : (bj (a.getD 0 ' ')).isEmpty = false) : dChain a bj 0 = 1 := by
  rw [show dChain a bj 0
      = if (bj (a.getD 0 ' ')).isEmpty then 0 else 1 from rfl, h]
  simp

theorem dChain_eq_dPrev {a : Str} {bj : Char → List Nat} {r : Nat}
    (h : (bj (a.getD r ' ')).isEmpty = false) :
    dChain a bj r = dPrev a bj r + 1 := by
  cases r with
  | zero => rw [dChain_zero_active h]; rfl
  | succ n => rw [dChain_succ_active h]; rfl

theorem dChain_le_maxD {a : Str} {bj : Char → List Nat} {m : Nat} :
    ∀ {r}, m < r → dChain a bj m ≤ maxD a bj r := by
  intro r
  induction r with
  | zero => intro h; omega
  | succ n ih =>
    intro h
    rcases Nat.lt_succ_iff_lt_or_eq.mp h with h2 | rfl
    · refine le_trans (ih h2) ?_
      rw [show maxD a bj (n + 1) = max (maxD a bj n) (dChain a bj n) from rfl]
      exact le_max_left _ _
    · rw [show maxD a bj (m + 1) = max (maxD a bj m) (dChain a bj m) from rfl]
      exact le_max_right _ _

theorem flmRowSelf (a : Str) (r : Nat) (j2prev : Nat → Nat)
    (H1 : ∀ j, j < a.length → j2prev j ≤ dChain a (b2j a) j)
    (H2 : ∀ j, j2prev j ≤ dPrev a (b2j a) r)
    (H3 : ∀ r', r = r' + 1 → j2prev r' = dChain a (b2j a) r') :
    ∀ (js : List Nat) (newj : Nat → Nat) (best : Nat × Nat × Nat),
      (∀ j ∈ js, j < a.length ∧ a[j]? = some (a.getD r ' ')) →
      List.Pairwise (· < ·) js →
      (js ≠ [] → (b2j a (a.getD r ' ')).isEmpty = false) →
      (∀ j, j < a.length → newj j ≤ dChain a (b2j a) j) →
      (∀ j, newj j ≤ dChain a (b2j a) r) →
      ((r ∈ js ∧ newj r = 0) ∨ (r ∉ js ∧ newj r = dChain a (b2j a) r)) →
      best.1 = best.2.1 →
      maxD a (b2j a) r ≤ best.2.2 →
      best.1 + best.2.2 ≤ r + 1 →
      (best.2.2 = 0 → best.1 = 0 ∧ best.2.1 = 0) →
      (r ∉ js → dChain a (b2j a) r ≤ best.2.2) →
      ((∀ j, j < a.length →
          (flmRow 0 a.length r j2prev js newj best).1 j ≤ dChain a (b2j a) j) ∧
       (∀ j, (flmRow 0 a.length r j2prev js newj best).1 j ≤ dChain a (b2j a) r) ∧
       (flmRow 0 a.length r j2prev js newj best).1 r = dChain a (b2j a) r ∧
       (flmRow 0 a.length r j2prev js newj best).2.1
         = (flmRow 0 a.length r j2prev js newj best).2.2.1 ∧
       maxD a (b2j a) r ≤ (flmRow 0 a.length r j2prev js newj best).2.2.2 ∧
       dChain a (b2j a) r ≤ (flmRow 0 a.length r j2prev js newj best).2.2.2 ∧
       (flmRow 0 a.length r j2prev js newj best).2.1
         + (flmRow 0 a.length r j2prev js newj best).2.2.2 ≤ r + 1 ∧
       ((flmRow 0 a.length r j2prev js newj best).2.2.2 = 0 →
         (flmRow 0 a.length r j2prev js newj best).2.1 = 0 ∧
         (flmRow 0 a.length r j2prev js newj best).2.2.1 = 0)) := by
  intro js
  induction js with
  | nil =>
    intro newj best hmem hpw hact hn1 hn2 hn3 hb1 hb2 hb3 hb4 hb5
    have hne : r ∉ ([] : List Nat) := by simp
    refine ⟨hn1, hn2, ?_, hb1, hb2, hb5 hne, hb3, hb4⟩
    rcases hn3 with ⟨habs, _⟩ | ⟨_, h⟩
    · simp at habs
    · exact h
  | cons j rest ih =>
    intro newj best hmem hpw hact hn1 hn2 hn3 hb1 hb2 hb3 hb4 hb5
    have hj := hmem j (List.mem_cons_self j rest)
    have hjn : j < a.length := hj.1
    have hactr : (b2j a (a.getD r ' ')).isEmpty = false := hact (by simp)
    have hchar : a.getD j ' ' = a.getD r ' ' := by
      rw [List.getD_eq_getElem?_getD, hj.2]
      rfl
    have hactj : (b2j a (a.getD j ' ')).isEmpty = false := by rw [hchar]; exact hactr
    have hrrest : ∀ x ∈ rest, j < x := (List.pairwise_cons.mp hpw).1
    have hpw' : List.Pairwise (· < ·) rest := (List.pairwise_cons.mp hpw).2
    have hkj : flmK j2prev j ≤ dChain a (b2j a) j := by
      unfold flmK
      rcases j with _ | m
      · rw [dChain_zero_active hactj]
        simp
      · rw [dChain_succ_active hactj]
        have := H1 m (by omega)
        simp only [Nat.succ_ne_zero, if_false, Nat.add_sub_cancel]
        omega
    have hkr : flmK j2prev j ≤ dChain a (b2j a) r := by
      rw [dChain_eq_dPrev hactr]
      unfold flmK
      rcases j with _ | m
      · simp
      · have := H2 m
        simp only [Nat.succ_ne_zero, if_false, Nat.add_sub_cancel]
        omega
    have hkpos : 1 ≤ flmK j2prev j := by unfold flmK; omega
    have heq : flmRow 0 a.length r j2prev (j :: rest) newj best
        = flmRow 0 a.length r j2prev rest (updNat newj j (flmK j2prev j))
            (if best.2.2 < flmK j2prev j then
              (r + 1 - flmK j2prev j, j + 1 - flmK j2prev j, flmK j2prev j)
            else best) := by
      rw [show flmRow 0 a.length r j2prev (j :: rest) newj best
          = if j < 0 then flmRow 0 a.length r j2prev rest newj best
            else if a.length ≤ j then (newj, best)
            else flmRow 0 a.length r j2prev rest
              (updNat newj j (flmK j2prev j))
              (if best.2.2 < flmK j2prev j then
                (r + 1 - flmK j2prev j, j + 1 - flmK j2prev j, flmK j2prev j)
              else best) from rfl]
      rw [if_neg (Nat.not_lt_zero j), if_neg (not_le.mpr hjn)]
    rw [heq]
    rcases Nat.lt_trichotomy j r with hjr | rfl | hjr
    · -- j < r : a shorter chain column left of the diagonal; no update
      have hnoupd : ¬ (best.2.2 < flmK j2prev j) := by
        have h2 : dChain a (b2j a) j ≤ maxD a (b2j a) r := dChain_le_maxD hjr
        omega
      rw [if_neg hnoupd]
      apply ih _ best (fun x hx => hmem x (List.mem_cons_of_mem _ hx)) hpw'
        (fun _ => hactr)
      · intro x hx
        by_cases hxj : x = j
        · subst hxj
          rw [updNat_same]
          exact hkj
        · rw [updNat_noteq hxj]
          exact hn1 x hx
      · intro x
        by_cases hxj : x = j
        · subst hxj
          rw [updNat_same]
          exact hkr
        · rw [updNat_noteq hxj]
          exact hn2 x
      · have hrj : r ≠ j := by omega
        rcases hn3 with ⟨hrin, hz⟩ | ⟨hnotin, heqr⟩
        · rcases List.mem_cons.mp hrin with h | h
          · exact absurd h hrj
          · exact Or.inl ⟨h, by rw [updNat_noteq hrj]; exact hz⟩
        · refine Or.inr ⟨fun h => hnotin (List.mem_cons_of_mem _ h), ?_⟩
          rw [updNat_noteq hrj]
          exact heqr
      · exact hb1
      · exact hb2
      · exact hb3
      · exact hb4
      · intro hnotin
        refine hb5 ?_
        intro hin
        rcases List.mem_cons.mp hin with h | h
        · omega
        · exact hnotin h
    · -- j = r : the diagonal column; the only possible update, and diagonal
      have hke : flmK j2prev j = dChain a (b2j a) j := by
        rw [dChain_eq_dPrev hactr]
        unfold flmK
        rcases j with _ | m
        · simp [dPrev]
        · rw [if_neg (Nat.succ_ne_zero m), Nat.add_sub_cancel, H3 m rfl]
          rfl
      have hrnotin : j ∉ rest := by
        intro h
        exact absurd (hrrest j h) (lt_irrefl j)
      have hupdats : ∀ best2 : Nat × Nat × Nat,
          best2 = (if best.2.2 < flmK j2prev j then
              (j + 1 - flmK j2prev j, j + 1 - flmK j2prev j, flmK j2prev j)
            else best) →
          best2.1 = best2.2.1 ∧ maxD a (b2j a) j ≤ best2.2.2 ∧
          best2.1 + best2.2.2 ≤ j + 1 ∧
          (best2.2.2 = 0 → best2.1 = 0 ∧ best2.2.1 = 0) ∧
          dChain a (b2j a) j ≤ best2.2.2 := by
        intro best2 hb
        split at hb
        · rename_i hlt
          subst hb
          have hkle : flmK j2prev j ≤ j + 1 := le_trans hkj (dChain_le a (b2j a) j)
          refine ⟨rfl, by simp only; omega, by simp only; omega, ?_, by simp only; omega⟩
          intro habs
          simp only at habs
          omega
        · rename_i hge
          subst hb
          exact ⟨hb1, hb2, hb3, hb4, by omega⟩
      have hres := hupdats _ rfl
      apply ih _ _ (fun x hx => hmem x (List.mem_cons_of_mem _ hx)) hpw'
        (fun _ => hactr)
      · intro x hx
        by_cases hxj : x = j
        · subst hxj
          rw [updNat_same]
          exact hkj
        · rw [updNat_noteq hxj]
          exact hn1 x hx
      · intro x
        by_cases hxj : x = j
        · subst hxj
          rw [updNat_same]
          exact hkr
        · rw [updNat_noteq hxj]
          exact hn2 x
      · refine Or.inr ⟨hrnotin, ?_⟩
        rw [updNat_same]
        exact hke
      · exact hres.1
      · exact hres.2.1
      · exact hres.2.2.1
      · exact hres.2.2.2.1
      · intro _
        exact hres.2.2.2.2
    · -- r < j : the diagonal was already passed (sortedness); no update
      have hnotin : r ∉ j :: rest := by
        intro hin
        rcases List.mem_cons.mp hin with h | h
        · omega
        · exact absurd (hrrest r h) (by omega)
      rcases hn3 with ⟨hrin, _⟩ | ⟨_, heqr⟩
      · exact absurd hrin hnotin
      · have hdle : dChain a (b2j a) r ≤ best.2.2 := hb5 hnotin
        have hnoupd : ¬ (best.2.2 < flmK j2prev j) := by omega
        rw [if_neg hnoupd]
        apply ih _ best (fun x hx => hmem x (List.mem_cons_of_mem _ hx)) hpw'
          (fun _ => hactr)
        · intro x hx
          by_cases hxj : x = j
          · subst hxj
            rw [updNat_same]
            exact hkj
          · rw [updNat_noteq hxj]
            exact hn1 x hx
        · intro x
          by_cases hxj : x = j
          · subst hxj
            rw [updNat_same]
            exact hkr
          · rw [updNat_noteq hxj]
            exact hn2 x
        · refine Or.inr ⟨fun h => hnotin (List.mem_cons_of_mem _ h), ?_⟩
          rw [updNat_noteq (by omega : r ≠ j)]
          exact heqr
        · exact hb1
        · exact hb2
        · exact hb3
        · exact hb4
        · intro _
          exact hdle

theorem flmRowsSelf (a : Str) :
    ∀ (cnt r : Nat) (j2prev : Nat → Nat) (best : Nat × Nat × Nat),
      r + cnt = a.length →
      (∀ j, j < a.length → j2prev j ≤ dChain a (b2j a) j) →
      (∀ j, j2prev j ≤ dPrev a (b2j a) r) →
      (∀ r', r = r' + 1 → j2prev r' = dChain a (b2j a) r') →
      best.1 = best.2.1 →
      maxD a (b2j a) r ≤ best.2.2 →
      best.1 + best.2.2 ≤ r →
      (best.2.2 = 0 → best.1 = 0 ∧ best.2.1 = 0) →
      ((flmRows a (b2j a) 0 a.length r cnt j2prev best).1
         = (flmRows a (b2j a) 0 a.length r cnt j2prev best).2.1 ∧
       maxD a (b2j a) a.length ≤ (flmRows a (b2j a) 0 a.length r cnt j2prev best).2.2 ∧
       (flmRows a (b2j a) 0 a.length r cnt j2prev best).1
         + (flmRows a (b2j a) 0 a.length r cnt j2prev best).2.2 ≤ a.length ∧
       ((flmRows a (b2j a) 0 a.length r cnt j2prev best).2.2 = 0 →
         (flmRows a (b2j a) 0 a.length r cnt j2prev best).1 = 0 ∧
         (flmRows a (b2j a) 0 a.length r cnt j2prev best).2.1 = 0)) := by
  intro cnt
  induction cnt with
  | zero =>
    intro r j2prev best hr h1 h2 h3 hb1 hb2 hb3 hb4
    have hrn : r = a.length := by omega
    subst hrn
    have hred : flmRows a (b2j a) 0 a.length a.length 0 j2prev best = best := rfl
    rw [hred]
    exact ⟨hb1, hb2, by omega, hb4⟩
  | succ n ih =>
    intro r j2prev best hr h1 h2 h3 hb1 hb2 hb3 hb4
    have hrn : r < a.length := by omega
    have hjs : ∀ j ∈ b2j a (a.getD r ' '), j < a.length ∧ a[j]? = some (a.getD r ' ') :=
      fun j hj => mem_b2j hj
    have hS3 : (r ∈ b2j a (a.getD r ' ') ∧ (fun _ : Nat => 0) r = 0) ∨
        (r ∉ b2j a (a.getD r ' ') ∧ (fun _ : Nat => 0) r = dChain a (b2j a) r) := by
      rcases hemp : (b2j a (a.getD r ' ')).isEmpty with hfalse | htrue
      · exact Or.inl ⟨self_mem_b2j hrn hemp, rfl⟩
      · refine Or.inr ⟨?_, ?_⟩
        · intro hin
          rw [List.isEmpty_iff.mp hemp] at hin
          simp at hin
        · rw [dChain_inactive hemp]
    have hrow := flmRowSelf a r j2prev h1 h2 h3 (b2j a (a.getD r ' '))
      (fun _ => 0) best hjs (b2j_pairwise a _)
      (fun hne => active_of_ne_nil hne)
      (fun j _ => Nat.zero_le _) (fun j => Nat.zero_le _) hS3
      hb1 hb2 (by omega) hb4
      (by
        intro hnotin
        rcases hemp : (b2j a (a.getD r ' ')).isEmpty with hfalse | htrue
        · exact absurd (self_mem_b2j hrn hemp) hnotin
        · rw [dChain_inactive hemp]
          exact Nat.zero_le _)
    have heq : flmRows a (b2j a) 0 a.length r (n + 1) j2prev best
        = flmRows a (b2j a) 0 a.length (r + 1) n
            (flmRow 0 a.length r j2prev (b2j a (a.getD r ' ')) (fun _ => 0) best).1
            (flmRow 0 a.length r j2prev (b2j a (a.getD r ' ')) (fun _ => 0) best).2 := rfl
    rw [heq]
    apply ih (r + 1) _ _ (by omega) hrow.1
    · intro j
      exact hrow.2.1 j
    · intro r' hr'
      have : r' = r := by omega
      subst this
      exact hrow.2.2.1
    · exact hrow.2.2.2.1
    · rw [show maxD a (b2j a) (r + 1) = max (maxD a (b2j a) r) (dChain a (b2j a) r) from rfl]
      exact max_le hrow.2.2.2.2.1 hrow.2.2.2.2.2.1
    · exact hrow.2.2.2.2.2.2.1
    · exact hrow.2.2.2.2.2.2.2

theorem chEq_self {a : Str} {x : Nat} (hx : x < a.length) : chEq a a x x = true := by
  unfold chEq
  rw [List.getElem?_eq_getElem hx]
  simp

theorem extendBack_diag (a : Str) :
    ∀ (fuel bi bs : Nat), bi ≤ fuel → bi + bs ≤ a.length →
      extendBack a a 0 0 fuel (bi, bi, bs) = (0, 0, bi + bs) := by
  intro fuel
  induction fuel with
  | zero =>
    intro bi bs hf hb
    have : bi = 0 := by omega
    subst this
    rw [Nat.zero_add]
    rfl
  | succ n ih =>
    intro bi bs hf hb
    rcases Nat.eq_zero_or_pos bi with rfl | hpos
    · rw [show extendBack a a 0 0 (n + 1) (0, 0, bs)
          = if 0 < 0 ∧ 0 < 0 ∧ chEq a a (0 - 1) (0 - 1) then
              extendBack a a 0 0 n (0 - 1, 0 - 1, bs + 1)
            else (0, 0, bs) from rfl]
      rw [if_neg (by simp), Nat.zero_add]
    · have hcond : 0 < bi ∧ 0 < bi ∧ chEq a a (bi - 1) (bi - 1) = true :=
        ⟨hpos, hpos, chEq_self (by omega)⟩
      rw [show extendBack a a 0 0 (n + 1) (bi, bi, bs)
          = if 0 < bi ∧ 0 < bi ∧ chEq a a (bi - 1) (bi - 1) then
              extendBack a a 0 0 n (bi - 1, bi - 1, bs + 1)
            else (bi, bi, bs) from rfl]
      rw [if_pos hcond]
      rw [ih (bi - 1) (bs + 1) (by omega) (by omega)]
      congr 2
      omega

theorem extendFwd_diag (a : Str) :
    ∀ (fuel s : Nat), a.length - s ≤ fuel → s ≤ a.length →
      extendFwd a a a.length a.length fuel (0, 0, s) = (0, 0, a.length) := by
  intro fuel
  induction fuel with
  | zero =>
    intro s hf hs
    have : s = a.length := by omega
    subst this
    rfl
  | succ n ih =>
    intro s hf hs
    rcases Nat.lt_or_ge s a.length with hlt | hge
    · have hcond : 0 + s < a.length ∧ 0 + s < a.length ∧ chEq a a (0 + s) (0 + s) = true := by
        refine ⟨by omega, by omega, ?_⟩
        rw [show 0 + s = s by omega]
        exact chEq_self hlt
      rw [show extendFwd a a a.length a.length (n + 1) (0, 0, s)
          = if 0 + s < a.length ∧ 0 + s < a.length ∧ chEq a a (0 + s) (0 + s) then
              extendFwd a a a.length a.length n (0, 0, s + 1)
            else (0, 0, s) from rfl]
      rw [if_pos hcond]
      exact ih (s + 1) (by omega) (by omega)
    · have : s = a.length := by omega
      subst this
      rw [show extendFwd a a a.length a.length (n + 1) (0, 0, a.length)
          = if 0 + a.length < a.length ∧ 0 + a.length < a.length ∧
              chEq a a (0 + a.length) (0 + a.length) then
              extendFwd a a a.length a.length n (0, 0, a.length + 1)
            else (0, 0, a.length) from rfl]
      rw [if_neg (by rintro ⟨h1, -, -⟩; omega)]

theorem flm_self (a : Str) :
    find_longest_match a a (b2j a) 0 a.length 0 a.length = (0, 0, a.length) := by
  unfold find_longest_match
  have hdp := flmRowsSelf a (a.length - 0) 0 (fun _ => 0) (0, 0, 0) (by omega)
    (fun j _ => Nat.zero_le _) (fun j => Nat.zero_le _)
    (fun r' hr' => absurd hr' (by omega)) rfl (Nat.zero_le _)
    (show (0 : Nat) + 0 ≤ 0 by omega)
    (fun _ => ⟨rfl, rfl⟩)
  rcases hF : flmRows a (b2j a) 0 a.length 0 (a.length - 0) (fun _ => 0) (0, 0, 0)
    with ⟨bi, bj2, bs⟩
  rw [hF] at hdp
  have h1 : bi = bj2 := hdp.1
  subst h1
  have h3 : bi + bs ≤ a.length := hdp.2.2.1
  show extendFwd a a a.length a.length a.length
      (extendBack a a 0 0 bi (bi, bi, bs)) = (0, 0, a.length)
  rw [extendBack_diag a bi bi bs le_rfl h3]
  exact extendFwd_diag a a.length (bi + bs) (by omega) h3

theorem matchesSum_self (a : Str) (fuel : Nat) (hne : a ≠ []) :
    matchesSum a a (b2j a) (fuel + 1) 0 a.length 0 a.length = a.length := by
  have hlen : a.length ≠ 0 := fun h => hne (List.length_eq_zero.mp h)
  unfold matchesSum
  rw [flm_self a]
  simp [hlen]

theorem ratioVal_self (a : Str) (hne : a ≠ []) : ratioVal a a = 1 := by
  have hlen : a.length ≠ 0 := fun h => hne (List.length_eq_zero.mp h)
  unfold ratioVal
  rw [if_neg (by omega)]
  rw [matchesSum_self a (a.length + a.length) hne]
  rw [div_eq_one_iff_eq (by exact_mod_cast (by omega : a.length + a.length ≠ 0))]
  ring

theorem similarity_self (x : Str) (h : pyStrip (pyLower x) ≠ []) : similarity x x = 1 := by
  unfold similarity
  rw [if_neg (by simp [List.isEmpty_iff, h])]
  exact ratioVal_self _ h

theorem sim_ab_bacb : similarity ("ab".toList) ("bacb".toList) = 2 / 3 := by
  unfold similarity
  split
  · rename_i h
    exact absurd h (by decide)
  · unfold ratioVal
    split
    · rename_i h
      exact absurd h (by decide)
    · rw [show matchesSum (pyStrip (pyLower "ab".toList)) (pyStrip (pyLower "bacb".toList))
          (b2j (pyStrip (pyLower "bacb".toList)))
          ((pyStrip (pyLower "ab".toList)).length + (pyStrip (pyLower "bacb".toList)).length + 1)
          0 (pyStrip (pyLower "ab".toList)).length 0 (pyStrip (pyLower "bacb".toList)).length
          = 2 from by decide]
      rw [show (pyStrip (pyLower "ab".toList)).length = 2 from by decide]
      rw [show (pyStrip (pyLower "bacb".toList)).length = 4 from by decide]
      norm_num

theorem sim_bacb_ab : similarity ("bacb".toList) ("ab".toList) = 1 / 3 := by
  unfold similarity
  split
  · rename_i h
    exact absurd h (by decide)
  · unfold ratioVal
    split
    · rename_i h
      exact absurd h (by decide)
    · rw [show matchesSum (pyStrip (pyLower "bacb".toList)) (pyStrip (pyLower "ab".toList))
          (b2j (pyStrip (pyLower "ab".toList)))
          ((pyStrip (pyLower "bacb".toList)).length + (pyStrip (pyLower "ab".toList)).length + 1)
          0 (pyStrip (pyLower "bacb".toList)).length 0 (pyStrip (pyLower "ab".toList)).length
          = 1 from by decide]
      rw [show (pyStrip (pyLower "bacb".toList)).length = 4 from by decide]
      rw [show (pyStrip (pyLower "ab".toList)).length = 2 from by decide]
      norm_num

/-- C3 counterexample: similarity is not symmetric. difflib's matcher is
order-sensitive: for `a = "ab"`, `b = "bacb"` it matches both characters
(`"a"` then the trailing `"b"`), but with the arguments swapped only the
earliest longest block (`"b"`) survives, so the two ratios are 2/3 and
1/3. -/
theorem similarity_not_symmetric :
    similarity ("ab".toList) ("bacb".toList) = 2 / 3 ∧
    similarity ("bacb".toList) ("ab".toList) = 1 / 3 ∧
    similarity ("ab".toList) ("bacb".toList) ≠ similarity ("bacb".toList) ("ab".toList) := by
  refine ⟨sim_ab_bacb, sim_bacb_ab, ?_⟩
  rw [sim_ab_bacb, sim_bacb_ab]
  norm_num

/-- C3 (amended): similarity is bounded in [0, 1], returns 0 whenever
either argument is empty after lower-casing and trimming, and equals 1
on any pair of identical inputs that are non-empty after trimming; it is
however not symmetric (see the counterexample). -/
theorem similarity_bounded_identity :
    (∀ a b : Str, 0 ≤ similarity a b ∧ similarity a b ≤ 1) ∧
    (∀ a b : Str, ((pyStrip (pyLower a)).isEmpty ∨ (pyStrip (pyLower b)).isEmpty) →
      similarity a b = 0) ∧
    (∀ x : Str, pyStrip (pyLower x) ≠ [] → similarity x x = 1) := by
  refine ⟨fun a b => ⟨similarity_nonneg a b, similarity_le_one a b⟩, ?_, similarity_self⟩
  intro a b h
  unfold similarity
  rw [if_pos h]

/-- Witness for C3 at concrete inputs. -/
theorem similarity_bounded_identity_witness :
    (0 ≤ similarity ("abc".toList) ("xyz".toList) ∧
      similarity ("abc".toList) ("xyz".toList) ≤ 1) ∧
    similarity ([] : Str) ("x".toList) = 0 ∧
    (pyStrip (pyLower ("So What".toList)) ≠ [] ∧
      similarity ("So What".toList) ("So What".toList) = 1) :=
  ⟨similarity_bounded_identity.1 _ _,
   similarity_bounded_identity.2.1 [] ("x".toList) (by decide),
   by decide,
   similarity_bounded_identity.2.2 ("So What".toList) (by decide)⟩

/-- A catalog track candidate as consumed by the scoring code: the
fields of the Spotify payload that `search_track` /
`search_tracks_multiple` read (`dict.get` defaults absorbed: a missing
popularity reads as 0). -/
structure Track where
  name : Str
  artists : List Str
  duration_ms : Option Nat
  popularity : Nat
deriving DecidableEq

/-- Python `int(round(ms / 1000))`: round-half-to-even of an exact
thousandth. -/
def roundDiv1000 (ms : Nat) : Nat :=
  if ms % 1000 < 500 then ms / 1000
  else if 500 < ms % 1000 then ms / 1000 + 1
  else if ms / 1000 % 2 = 0 then ms / 1000 else ms / 1000 + 1

/-- The duration penalty of the scoring formula: applied only when the
requested duration is known and the candidate duration is truthy
(non-`None` and non-zero), and only when they differ by more than 5
seconds; capped at 0.5. -/
def dur_penalty (duration_sec : Option Nat) (dur_ms : Option Nat) : ℚ :=
  match duration_sec, dur_ms with
  | some ds, some ms =>
    if ms ≠ 0 then
      if 5 < (Int.natAbs ((roundDiv1000 ms : Int) - (ds : Int))) then
        min (1 / 2) (((Int.natAbs ((roundDiv1000 ms : Int) - (ds : Int)) : ℚ)) / 60)
      else 0
    else 0
  | _, _ => 0

/-- The candidate score `0.6 * title_score + 0.4 * artist_score - dur_penalty`
of `search_track` / `search_tracks_multiple` (the artist term is computed
only when an artist was requested). -/
def scoreOf (artist title : Str) (duration_sec : Option Nat) (c : Track) : ℚ :=
  (6 / 10) * similarity title c.name
    + (4 / 10) * (if ¬ artist.isEmpty then best_artist_similarity artist c.artists else 0)
    - dur_penalty duration_sec c.duration_ms

/-- The selection fold of `search_track`: `best = None, best_score = -1.0`,
strict improvement only. -/
def trackFold (artist title : Str) (duration_sec : Option Nat)
    (items : List Track) : Option Track × ℚ :=
  items.foldl (fun acc c =>
    if acc.2 < scoreOf artist title duration_sec c
    then (some c, scoreOf artist title duration_sec c) else acc) (none, -1)

/-- The scoring phase of `app.py` `search_track` on an already-fetched
candidate list (the catalog call is the external Catalog Service):
select the strict-improvement maximum and gate it at 0.55. -/
def search_track_pick (artist title : Str) (duration_sec : Option Nat)
    (items : List Track) : Option Track :=
  if (trackFold artist title duration_sec items).2 < 11 / 20 then none
  else (trackFold artist title duration_sec items).1

/-- Stable descending insertion by key: an element moves past `y` only
when strictly greater, so equal keys keep first-come order — the
semantics of Python's stable `list.sort(key=..., reverse=True)`. -/
def insertDesc [LinearOrder κ] (key : α → κ) (x : α) : List α → List α
  | [] => [x]
  | y :: ys => if key y < key x then x :: y :: ys else y :: insertDesc key x ys

/-- Stable descending sort by key (insertion sort; extensionally equal
to any stable sort with the same key, hence to Python's). -/
def stableSortDesc [LinearOrder κ] (key : α → κ) (l : List α) : List α :=
  l.foldl (fun acc x => insertDesc key x acc) []

/-- The scoring phase of `app.py` `search_tracks_multiple` on an
already-fetched candidate list: score everything, sort by score
descending (stable), keep scores ≥ 0.3. -/
def search_tracks_multiple (artist title : Str) (duration_sec : Option Nat)
    (items : List Track) : List (Track × ℚ) :=
  (stableSortDesc (fun p => p.2)
    (items.map (fun c => (c, scoreOf artist title duration_sec c)))).filter
    (fun p => (3 / 10 : ℚ) ≤ p.2)

/-- An album candidate: the fields `search_album`'s sort key reads. -/
structure Album where
  aid : Nat
  popularity : Nat
  total_tracks : Nat
deriving DecidableEq

/-- The selection phase of `app.py` `search_album`:
`items.sort(key=lambda a: (popularity, total_tracks), reverse=True)` and
take the head. The sort key is the lexicographic pair. -/
def search_album_pick (items : List Album) : Option Album :=
  (stableSortDesc (fun al => toLex (al.popularity, al.total_tracks)) items).head?

theorem insertDesc_perm {α κ : Type} [LinearOrder κ] (key : α → κ) (x : α)
    (l : List α) : List.Perm (insertDesc key x l) (x :: l) := by
  induction l with
  | nil => exact List.Perm.refl _
  | cons y ys ih =>
    show List.Perm (if key y < key x then x :: y :: ys else y :: insertDesc key x ys) _
    split
    · exact List.Perm.refl _
    · exact (ih.cons y).trans (List.Perm.swap x y ys)

theorem sortGo_perm {α κ : Type} [LinearOrder κ] (key : α → κ) :
    ∀ (l acc : List α),
      List.Perm (l.foldl (fun acc x => insertDesc key x acc) acc) (acc ++ l) := by
  intro l
  induction l with
  | nil => intro acc; rw [List.append_nil]; exact List.Perm.refl _
  | cons x xs ih =>
    intro acc
    show List.Perm (xs.foldl _ (insertDesc key x acc)) _
    refine ((ih (insertDesc key x acc)).trans ?_).trans List.perm_middle.symm
    exact ((insertDesc_perm key x acc).append_right xs)

theorem stableSortDesc_perm {α κ : Type} [LinearOrder κ] (key : α → κ)
    (l : List α) : List.Perm (stableSortDesc key l) l := by
  have h := sortGo_perm key l []
  exact h

theorem insertDesc_sorted {α κ : Type} [LinearOrder κ] (key : α → κ) (x : α)
    (l : List α) (h : List.Pairwise (fun a b => key b ≤ key a) l) :
    List.Pairwise (fun a b => key b ≤ key a) (insertDesc key x l) := by
  induction l with
  | nil => simp [insertDesc]
  | cons y ys ih =>
    rw [List.pairwise_cons] at h
    obtain ⟨hy, hys⟩ := h
    show List.Pairwise _ (if key y < key x then x :: y :: ys else y :: insertDesc key x ys)
    split
    case isTrue hlt =>
      rw [List.pairwise_cons]
      refine ⟨fun z hz => ?_, List.pairwise_cons.mpr ⟨hy, hys⟩⟩
      rcases List.mem_cons.mp hz with rfl | hz2
      · exact le_of_lt hlt
      · exact le_trans (hy z hz2) (le_of_lt hlt)
    case isFalse hnlt =>
      rw [List.pairwise_cons]
      refine ⟨fun z hz => ?_, ih hys⟩
      rcases List.mem_cons.mp ((insertDesc_perm key x ys).mem_iff.mp hz) with rfl | hz2
      · exact le_of_not_lt hnlt
      · exact hy z hz2

theorem sortGo_sorted {α κ : Type} [LinearOrder κ] (key : α → κ) :
    ∀ (l acc : List α), List.Pairwise (fun a b => key b ≤ key a) acc →
      List.Pairwise (fun a b => key b ≤ key a)
        (l.foldl (fun acc x => insertDesc key x acc) acc) := by
  intro l
  induction l with
  | nil => intro acc h; exact h
  | cons x xs ih =>
    intro acc h
    exact ih (insertDesc key x acc) (insertDesc_sorted key x acc h)

theorem stableSortDesc_sorted {α κ : Type} [LinearOrder κ] (key : α → κ)
    (l : List α) :
    List.Pairwise (fun a b => key b ≤ key a) (stableSortDesc key l) :=
  sortGo_sorted key l [] List.Pairwise.nil

theorem filter_nil_of_all {β : Type} (p : β → Bool) (l : List β)
    (h : ∀ a ∈ l, p a = false) : l.filter p = [] := by
  induction l with
  | nil => rfl
  | cons x xs ih =>
    rw [List.filter_cons, h x (List.mem_cons_self x xs)]
    exact ih (fun a ha => h a (List.mem_cons_of_mem x ha))

theorem insertDesc_filter_eq {α κ : Type} [LinearOrder κ] [DecidableEq κ]
    (key : α → κ) (s : κ) (x : α) (l : List α)
    (hsort : List.Pairwise (fun a b => key b ≤ key a) l) :
    (insertDesc key x l).filter (fun a => decide (key a = s)) =
      if key x = s then l.filter (fun a => decide (key a = s)) ++ [x]
      else l.filter (fun a => decide (key a = s)) := by
  induction l with
  | nil =>
    show List.filter _ [x] = _
    rw [List.filter_cons]
    by_cases hx : key x = s
    · rw [if_pos hx, if_pos (by simp [hx]), List.filter_nil, List.nil_append]
    · rw [if_neg hx, if_neg (by simp [hx]), List.filter_nil]
  | cons y ys ih =>
    rw [List.pairwise_cons] at hsort
    obtain ⟨hy, hys⟩ := hsort
    show List.filter _ (if key y < key x then x :: y :: ys else y :: insertDesc key x ys) = _
    by_cases hlt : key y < key x
    · rw [if_pos hlt]
      by_cases hx : key x = s
      · have hnil : (y :: ys).filter (fun a => decide (key a = s)) = [] := by
          apply filter_nil_of_all
          intro a ha
          rcases List.mem_cons.mp ha with rfl | ha2
          · simp only [decide_eq_false_iff_not]
            intro he; rw [he, ← hx] at hlt; exact lt_irrefl _ hlt
          · simp only [decide_eq_false_iff_not]
            intro he
            have := lt_of_le_of_lt (hy a ha2) hlt
            rw [he, ← hx] at this; exact lt_irrefl _ this
        rw [if_pos hx, List.filter_cons, if_pos (by simp [hx]), hnil]
        rfl
      · rw [if_neg hx, List.filter_cons, if_neg (by simp [hx])]
    · rw [if_neg hlt, List.filter_cons]
      by_cases hx : key x = s
      · rw [ih hys, if_pos hx, if_pos hx]
        by_cases hky : key y = s
        · rw [if_pos (by simp [hky]), List.filter_cons, if_pos (by simp [hky])]
          rfl
        · rw [if_neg (by simp [hky]), List.filter_cons, if_neg (by simp [hky])]
      · rw [ih hys, if_neg hx, if_neg hx]
        by_cases hky : key y = s
        · rw [if_pos (by simp [hky]), List.filter_cons, if_pos (by simp [hky])]
        · rw [if_neg (by simp [hky]), List.filter_cons, if_neg (by simp [hky])]

theorem sortGo_filter_eq {α κ : Type} [LinearOrder κ] [DecidableEq κ]
    (key : α → κ) (s : κ) :
    ∀ (l acc : List α), List.Pairwise (fun a b => key b ≤ key a) acc →
      (l.foldl (fun acc x => insertDesc key x acc) acc).filter
          (fun a => decide (key a = s)) =
        acc.filter (fun a => decide (key a = s)) ++
          l.filter (fun a => decide (key a = s)) := by
  intro l
  induction l with
  | nil => intro acc _; rw [List.filter_nil, List.append_nil]; rfl
  | cons x xs ih =>
    intro acc hacc
    show (xs.foldl _ (insertDesc key x acc)).filter _ = _
    rw [ih (insertDesc key x acc) (insertDesc_sorted key x acc hacc)]
    rw [insertDesc_filter_eq key s x acc hacc]
    rw [List.filter_cons]
    by_cases hx : key x = s
    · rw [if_pos hx, if_pos (by simp [hx]), List.append_assoc]
      rfl
    · rw [if_neg hx, if_neg (by simp [hx])]

theorem stableSortDesc_filter_eq {α κ : Type} [LinearOrder κ] [DecidableEq κ]
    (key : α → κ) (s : κ) (l : List α) :
    (stableSortDesc key l).filter (fun a => decide (key a = s)) =
      l.filter (fun a => decide (key a = s)) := by
  have h := sortGo_filter_eq key s l [] List.Pairwise.nil
  rw [List.filter_nil, List.nil_append] at h
  exact h

theorem foldl_mono_ge {β : Type} (g : ℚ → β → ℚ) (hg : ∀ a x, a ≤ g a x) :
    ∀ (l : List β) (m : ℚ), m ≤ l.foldl g m := by
  intro l
  induction l with
  | nil => intro m; exact le_refl m
  | cons x xs ih => intro m; exact le_trans (hg m x) (ih (g m x))

theorem foldl_pres_le {β : Type} (g : ℚ → β → ℚ) (q : ℚ)
    (hg : ∀ a x, a ≤ q → g a x ≤ q) :
    ∀ (l : List β) (m : ℚ), m ≤ q → l.foldl g m ≤ q := by
  intro l
  induction l with
  | nil => intro m h; exact h
  | cons x xs ih => intro m h; exact ih (g m x) (hg m x h)

theorem foldl_max_ge_mem {β : Type} (f : β → ℚ) :
    ∀ (l : List β) (m : ℚ) (x : β), x ∈ l →
      f x ≤ l.foldl (fun acc y => max acc (f y)) m := by
  intro l
  induction l with
  | nil => intro m x hx; exact absurd hx (List.not_mem_nil x)
  | cons y ys ih =>
    intro m x hx
    rcases List.mem_cons.mp hx with rfl | hx2
    · exact le_trans (le_max_right m (f x))
        (foldl_mono_ge _ (fun a z => le_max_left a (f z)) ys (max m (f x)))
    · exact ih (max m (f y)) x hx2

theorem bas_nonneg (a : Str) (l : List Str) : 0 ≤ best_artist_similarity a l := by
  unfold best_artist_similarity
  split
  · exact le_refl 0
  · exact foldl_mono_ge _
      (fun b c => foldl_mono_ge _ (fun b2 r => le_max_left b2 _) _ b) l 0

theorem bas_le_one (a : Str) (l : List Str) : best_artist_similarity a l ≤ 1 := by
  unfold best_artist_similarity
  split
  · norm_num
  · exact foldl_pres_le _ 1
      (fun b c hb => foldl_pres_le _ 1
        (fun b2 r hb2 => max_le hb2 (similarity_le_one _ _)) _ b hb) l 0 (by norm_num)

theorem dur_penalty_nonneg (d m : Option Nat) : 0 ≤ dur_penalty d m := by
  unfold dur_penalty
  rcases d with _ | ds <;> rcases m with _ | ms
  · exact le_refl 0
  · exact le_refl 0
  · exact le_refl 0
  · show (0 : ℚ) ≤ if ms ≠ 0 then _ else 0
    split
    · split
      · refine le_min (by norm_num) ?_
        positivity
      · exact le_refl 0
    · exact le_refl 0

theorem dur_penalty_le_half (d m : Option Nat) : dur_penalty d m ≤ 1 / 2 := by
  unfold dur_penalty
  rcases d with _ | ds <;> rcases m with _ | ms
  · norm_num
  · norm_num
  · norm_num
  · show (if ms ≠ 0 then _ else (0 : ℚ)) ≤ 1 / 2
    split
    · split
      · exact min_le_left _ _
      · norm_num
    · norm_num

theorem scoreOf_gt_neg_one (artist title : Str) (d : Option Nat) (c : Track) :
    -1 < scoreOf artist title d c := by
  have h1 : 0 ≤ (6 / 10 : ℚ) * similarity title c.name :=
    mul_nonneg (by norm_num) (similarity_nonneg _ _)
  have h2 : 0 ≤ (4 / 10 : ℚ) *
      (if ¬ artist.isEmpty then best_artist_similarity artist c.artists else 0) := by
    refine mul_nonneg (by norm_num) ?_
    split
    · exact bas_nonneg _ _
    · exact le_refl 0
  have h3 := dur_penalty_le_half d c.duration_ms
  unfold scoreOf
  linarith

theorem scoreOf_le_one (artist title : Str) (d : Option Nat) (c : Track) :
    scoreOf artist title d c ≤ 1 := by
  have h1 : (6 / 10 : ℚ) * similarity title c.name ≤ 6 / 10 := by
    have := mul_le_mul_of_nonneg_left (similarity_le_one title c.name)
      (by norm_num : (0 : ℚ) ≤ 6 / 10)
    linarith
  have h2 : (4 / 10 : ℚ) *
      (if ¬ artist.isEmpty then best_artist_similarity artist c.artists else 0)
        ≤ 4 / 10 := by
    have hb : (if ¬ artist.isEmpty then best_artist_similarity artist c.artists else 0)
        ≤ 1 := by
      split
      · exact bas_le_one _ _
      · norm_num
    have := mul_le_mul_of_nonneg_left hb (by norm_num : (0 : ℚ) ≤ 4 / 10)
    linarith
  have h3 := dur_penalty_nonneg d c.duration_ms
  unfold scoreOf
  linarith

theorem trackStep_snd (artist title : Str) (d : Option Nat)
    (acc : Option Track × ℚ) (c : Track) :
    (if acc.2 < scoreOf artist title d c then (some c, scoreOf artist title d c)
      else acc).2 = max acc.2 (scoreOf artist title d c) := by
  split
  case isTrue h => exact (max_eq_right (le_of_lt h)).symm
  case isFalse h => exact (max_eq_left (le_of_not_lt h)).symm

theorem trackFoldGo_snd (artist title : Str) (d : Option Nat) :
    ∀ (items : List Track) (acc : Option Track × ℚ),
      (items.foldl (fun acc c =>
          if acc.2 < scoreOf artist title d c then (some c, scoreOf artist title d c)
          else acc) acc).2
        = items.foldl (fun m c => max m (scoreOf artist title d c)) acc.2 := by
  intro items
  induction items with
  | nil => intro acc; rfl
  | cons c cs ih =>
    intro acc
    show (cs.foldl _ (if acc.2 < scoreOf artist title d c then _ else acc)).2 = _
    rw [ih]
    rw [trackStep_snd artist title d acc c]
    rfl

theorem trackFoldGo_no_improve (artist title : Str) (d : Option Nat) :
    ∀ (items : List Track) (acc : Option Track × ℚ),
      (∀ c ∈ items, scoreOf artist title d c ≤ acc.2) →
      items.foldl (fun acc c =>
          if acc.2 < scoreOf artist title d c then (some c, scoreOf artist title d c)
          else acc) acc = acc := by
  intro items
  induction items with
  | nil => intro acc _; rfl
  | cons c cs ih =>
    intro acc h
    show cs.foldl _ (if acc.2 < scoreOf artist title d c then _ else acc) = acc
    rw [if_neg (not_lt.mpr (h c (List.mem_cons_self c cs)))]
    exact ih acc (fun e he => h e (List.mem_cons_of_mem c he))

theorem trackFoldGo_picks_unique (artist title : Str) (d : Option Nat) :
    ∀ (items : List Track) (acc : Option Track × ℚ) (c : Track),
      c ∈ items →
      (∀ e ∈ items, e = c ∨ scoreOf artist title d e < scoreOf artist title d c) →
      acc.2 < scoreOf artist title d c →
      items.foldl (fun acc c =>
          if acc.2 < scoreOf artist title d c then (some c, scoreOf artist title d c)
          else acc) acc = (some c, scoreOf artist title d c) := by
  intro items
  induction items with
  | nil => intro acc c hc; exact absurd hc (List.not_mem_nil c)
  | cons x xs ih =>
    intro acc c hc hall hacc
    by_cases hx : x = c
    · subst hx
      show xs.foldl _ (if acc.2 < scoreOf artist title d x then _ else acc) = _
      rw [if_pos hacc]
      apply trackFoldGo_no_improve
      intro e he
      show scoreOf artist title d e ≤ scoreOf artist title d x
      rcases hall e (List.mem_cons_of_mem x he) with rfl | hlt
      · exact le_refl _
      · exact le_of_lt hlt
    · have hc2 : c ∈ xs := by
        rcases List.mem_cons.mp hc with h | h
        · exact absurd h.symm hx
        · exact h
      have hxlt : scoreOf artist title d x < scoreOf artist title d c := by
        rcases hall x (List.mem_cons_self x xs) with h | h
        · exact absurd h hx
        · exact h
      show xs.foldl _ (if acc.2 < scoreOf artist title d x then _ else acc) = _
      apply ih _ c hc2 (fun e he => hall e (List.mem_cons_of_mem x he))
      show (if acc.2 < scoreOf artist title d x then
          (some x, scoreOf artist title d x) else acc).2 < scoreOf artist title d c
      split
      · exact hxlt
      · exact hacc

theorem trackFoldGo_some (artist title : Str) (d : Option Nat) :
    ∀ (items : List Track) (acc : Option Track × ℚ),
      (∃ t, acc.1 = some t) →
      ∃ t, (items.foldl (fun acc c =>
          if acc.2 < scoreOf artist title d c then (some c, scoreOf artist title d c)
          else acc) acc).1 = some t := by
  intro items
  induction items with
  | nil => intro acc h; exact h
  | cons c cs ih =>
    intro acc h
    show ∃ t, (cs.foldl _ (if acc.2 < scoreOf artist title d c then _ else acc)).1 = some t
    apply ih
    split
    · exact ⟨c, rfl⟩
    · exact h

theorem trackFold_some (artist title : Str) (d : Option Nat)
    (items : List Track) (h : items ≠ []) :
    ∃ t, (trackFold artist title d items).1 = some t := by
  cases items with
  | nil => exact absurd rfl h
  | cons c cs =>
    show ∃ t, (cs.foldl _
        (if ((none : Option Track), (-1 : ℚ)).2 < scoreOf artist title d c
          then (some c, scoreOf artist title d c)
          else ((none : Option Track), (-1 : ℚ)))).1 = some t
    rw [if_pos (show ((none : Option Track), (-1 : ℚ)).2 < scoreOf artist title d c from
      scoreOf_gt_neg_one artist title d c)]
    exact trackFoldGo_some artist title d cs _ ⟨c, rfl⟩

theorem trackFoldGo_snd_ge (artist title : Str) (d : Option Nat)
    (items : List Track) (acc : Option Track × ℚ) :
    acc.2 ≤ (items.foldl (fun acc c =>
        if acc.2 < scoreOf artist title d c then (some c, scoreOf artist title d c)
        else acc) acc).2 := by
  rw [trackFoldGo_snd]
  exact foldl_mono_ge _ (fun a c => le_max_left a _) items acc.2

theorem trackFoldGo_first (artist title : Str) (d : Option Nat) :
    ∀ (items : List Track) (t : Option Track) (b : ℚ) (c : Track),
      (items.foldl (fun acc c =>
          if acc.2 < scoreOf artist title d c then (some c, scoreOf artist title d c)
          else acc) (t, b)).1 = some c →
      (items.foldl (fun acc c =>
          if acc.2 < scoreOf artist title d c then (some c, scoreOf artist title d c)
          else acc) (t, b) = (t, b) ∧
        ∀ e ∈ items, scoreOf artist title d e ≤ b) ∨
      (∃ pre post, items = pre ++ c :: post ∧ b < scoreOf artist title d c ∧
        (∀ e ∈ pre, scoreOf artist title d e < scoreOf artist title d c) ∧
        (∀ e ∈ post, scoreOf artist title d e ≤ scoreOf artist title d c) ∧
        (items.foldl (fun acc c =>
            if acc.2 < scoreOf artist title d c then (some c, scoreOf artist title d c)
            else acc) (t, b)).2 = scoreOf artist title d c) := by
  intro items
  induction items with
  | nil =>
    intro t b c _
    exact Or.inl ⟨rfl, fun e he => absurd he (List.not_mem_nil e)⟩
  | cons x xs ih =>
    intro t b c hres
    have h0 : ((x :: xs).foldl (fun acc c =>
        if acc.2 < scoreOf artist title d c then (some c, scoreOf artist title d c)
        else acc) (t, b))
      = (xs.foldl (fun acc c =>
        if acc.2 < scoreOf artist title d c then (some c, scoreOf artist title d c)
        else acc)
        (if ((t, b) : Option Track × ℚ).2 < scoreOf artist title d x
          then (some x, scoreOf artist title d x) else (t, b))) := rfl
    by_cases himp : b < scoreOf artist title d x
    · have hstep : (if ((t, b) : Option Track × ℚ).2 < scoreOf artist title d x
          then (some x, scoreOf artist title d x) else (t, b))
            = (some x, scoreOf artist title d x) := if_pos himp
      rw [h0, hstep] at hres
      rcases ih (some x) (scoreOf artist title d x) c hres with ⟨heq, hall⟩ | hsplit
      · have hxc : x = c := by
          rw [heq] at hres
          exact Option.some_injective _ hres
        subst hxc
        refine Or.inr ⟨[], xs, rfl, himp, fun e he => absurd he (List.not_mem_nil e),
          hall, ?_⟩
        rw [h0, hstep, heq]
      · obtain ⟨pre, post, hsp, hbc, hpre, hpost, hval⟩ := hsplit
        refine Or.inr ⟨x :: pre, post, by rw [hsp]; rfl,
          lt_trans himp hbc, ?_, hpost, ?_⟩
        · intro e he
          rcases List.mem_cons.mp he with rfl | he2
          · exact hbc
          · exact hpre e he2
        · rw [h0, hstep, hval]
    · have hstep : (if ((t, b) : Option Track × ℚ).2 < scoreOf artist title d x
          then (some x, scoreOf artist title d x) else (t, b)) = (t, b) := if_neg himp
      rw [h0, hstep] at hres
      rcases ih t b c hres with ⟨heq, hall⟩ | hsplit
      · refine Or.inl ⟨?_, ?_⟩
        · rw [h0, hstep, heq]
        · intro e he
          rcases List.mem_cons.mp he with rfl | he2
          · exact le_of_not_lt himp
          · exact hall e he2
      · obtain ⟨pre, post, hsp, hbc, hpre, hpost, hval⟩ := hsplit
        refine Or.inr ⟨x :: pre, post, by rw [hsp]; rfl, hbc, ?_, hpost, ?_⟩
        · intro e he
          rcases List.mem_cons.mp he with rfl | he2
          · exact lt_of_le_of_lt (le_of_not_lt himp) hbc
          · exact hpre e he2
        · rw [h0, hstep, hval]

theorem bas_empty (artist : Str) (l : List Str) (h : artist.isEmpty = true) :
    best_artist_similarity artist l = 0 := by
  unfold best_artist_similarity
  rw [if_pos h]

theorem scoreOf_formula (artist title : Str) (d : Option Nat) (c : Track) :
    scoreOf artist title d c
      = (6 / 10) * similarity title c.name
        + (4 / 10) * best_artist_similarity artist c.artists
        - dur_penalty d c.duration_ms := by
  unfold scoreOf
  by_cases h : artist.isEmpty = true
  · rw [if_neg (not_not_intro h), bas_empty artist c.artists h]
  · rw [if_pos h]

/-- C1: `search_track` scores every candidate as
`0.6 * title_similarity + 0.4 * artist_similarity - duration_penalty`,
the selection fold computes the maximum score, `None` is returned exactly
when that maximum is below 0.55, and a candidate with title similarity 1,
artist similarity 1 and zero duration penalty scores exactly 1 and is
selected over every strictly lower-scoring competitor. -/
theorem search_track_scoring (artist title : Str) (dur : Option Nat)
    (items : List Track) :
    (∀ c : Track, scoreOf artist title dur c
        = (6 / 10) * similarity title c.name
          + (4 / 10) * best_artist_similarity artist c.artists
          - dur_penalty dur c.duration_ms) ∧
    (∀ c ∈ items, scoreOf artist title dur c ≤ (trackFold artist title dur items).2) ∧
    (items ≠ [] →
      (search_track_pick artist title dur items = none ↔
        (trackFold artist title dur items).2 < 11 / 20)) ∧
    (∀ c ∈ items, similarity title c.name = 1 →
      best_artist_similarity artist c.artists = 1 →
      dur_penalty dur c.duration_ms = 0 →
      scoreOf artist title dur c = 1 ∧
      ((∀ e ∈ items, e = c ∨ scoreOf artist title dur e < scoreOf artist title dur c) →
        search_track_pick artist title dur items = some c)) := by
  refine ⟨scoreOf_formula artist title dur, ?_, ?_, ?_⟩
  · intro c hc
    have hsnd : (trackFold artist title dur items).2
        = items.foldl (fun m c => max m (scoreOf artist title dur c)) (-1) :=
      trackFoldGo_snd artist title dur items (none, -1)
    rw [hsnd]
    exact foldl_max_ge_mem _ items (-1) c hc
  · intro hne
    constructor
    · intro hnone
      by_contra hge
      obtain ⟨t, ht⟩ := trackFold_some artist title dur items hne
      unfold search_track_pick at hnone
      rw [if_neg hge, ht] at hnone
      exact Option.noConfusion hnone
    · intro hlt
      unfold search_track_pick
      rw [if_pos hlt]
  · intro c hc h1 h2 h3
    have hsc : scoreOf artist title dur c = 1 := by
      unfold scoreOf
      by_cases h : artist.isEmpty = true
      · rw [bas_empty artist c.artists h] at h2
        norm_num at h2
      · rw [if_pos h, h1, h2, h3]
        norm_num
    refine ⟨hsc, ?_⟩
    intro hmax
    have hfold : trackFold artist title dur items = (some c, scoreOf artist title dur c) := by
      apply trackFoldGo_picks_unique artist title dur items (none, -1) c hc hmax
      show (-1 : ℚ) < scoreOf artist title dur c
      rw [hsc]; norm_num
    unfold search_track_pick
    rw [hfold, hsc]
    rw [if_neg (by norm_num : ¬ ((1 : ℚ) < 11 / 20))]

/-- The concrete candidate used by the witnesses: title `"a"`, single
artist `"b"`, no duration, popularity 0. -/
def trackW : Track := ⟨"a".toList, ["b".toList], none, 0⟩

theorem basW : best_artist_similarity ("b".toList) [("b".toList)]
    = max 0 (similarity ("b".toList) ("b".toList)) := rfl

theorem basW_one : best_artist_similarity ("b".toList) [("b".toList)] = 1 := by
  rw [basW, similarity_self ("b".toList) (by decide)]
  exact max_eq_right (by norm_num)

theorem scoreW : scoreOf ("b".toList) ("a".toList) none trackW = 1 := by
  unfold scoreOf
  rw [if_pos (by decide : ¬ ("b".toList).isEmpty = true)]
  rw [show similarity ("a".toList) trackW.name = 1 from similarity_self _ (by decide)]
  rw [show best_artist_similarity ("b".toList) trackW.artists = 1 from basW_one]
  show (6 / 10 : ℚ) * 1 + 4 / 10 * 1 - 0 = 1
  norm_num

theorem pickW : search_track_pick ("b".toList) ("a".toList) none [trackW]
    = some trackW := by
  have hfold : trackFold ("b".toList) ("a".toList) none [trackW]
      = (some trackW, scoreOf ("b".toList) ("a".toList) none trackW) := by
    apply trackFoldGo_picks_unique ("b".toList) ("a".toList) none [trackW] (none, -1)
      trackW (List.mem_cons_self trackW [])
    · intro e he
      rcases List.mem_cons.mp he with rfl | h0
      · exact Or.inl rfl
      · exact absurd h0 (List.not_mem_nil e)
    · show (-1 : ℚ) < scoreOf ("b".toList) ("a".toList) none trackW
      rw [scoreW]; norm_num
  unfold search_track_pick
  rw [hfold, scoreW]
  rw [if_neg (by norm_num : ¬ ((1 : ℚ) < 11 / 20))]

theorem search_track_scoring_witness :
    trackW ∈ [trackW] ∧
    similarity ("a".toList) trackW.name = 1 ∧
    best_artist_similarity ("b".toList) trackW.artists = 1 ∧
    dur_penalty none trackW.duration_ms = 0 ∧
    ([trackW] : List Track) ≠ [] ∧
    scoreOf ("b".toList) ("a".toList) none trackW = 1 ∧
    search_track_pick ("b".toList) ("a".toList) none [trackW] = some trackW ∧
    ¬ (trackFold ("b".toList) ("a".toList) none [trackW]).2 < 11 / 20 := by
  have hmem : trackW ∈ [trackW] := List.mem_cons_self trackW []
  have hsim : similarity ("a".toList) trackW.name = 1 := similarity_self _ (by decide)
  have hbas : best_artist_similarity ("b".toList) trackW.artists = 1 := basW_one
  have hdp : dur_penalty none trackW.duration_ms = 0 := rfl
  have hne : ([trackW] : List Track) ≠ [] := List.cons_ne_nil trackW []
  have h := search_track_scoring ("b".toList) ("a".toList) none [trackW]
  have h4 := h.2.2.2 trackW hmem hsim hbas hdp
  have hpick : search_track_pick ("b".toList) ("a".toList) none [trackW]
      = some trackW := by
    apply h4.2
    intro e he
    rcases List.mem_cons.mp he with rfl | h0
    · exact Or.inl rfl
    · exact absurd h0 (List.not_mem_nil e)
  refine ⟨hmem, hsim, hbas, hdp, hne, h4.1, hpick, ?_⟩
  intro hlt
  have := ((h.2.2.1 hne).mpr hlt)
  rw [hpick] at this
  exact Option.noConfusion this

/-- C7: ranked resolution (`search_tracks_multiple`) returns exactly the
scored candidates with score ≥ 0.30, in descending score order, and —
since the catalog request is capped at `limit` results — at most `limit`
of them. -/
theorem search_tracks_multiple_ranked (artist title : Str) (dur : Option Nat)
    (limit : Nat) (items : List Track) (hlim : items.length ≤ limit) :
    List.Perm (search_tracks_multiple artist title dur items)
      ((items.map (fun c => (c, scoreOf artist title dur c))).filter
        (fun p => (3 / 10 : ℚ) ≤ p.2)) ∧
    List.Pairwise (fun p q : Track × ℚ => q.2 ≤ p.2)
      (search_tracks_multiple artist title dur items) ∧
    (∀ p ∈ search_tracks_multiple artist title dur items,
      (3 / 10 : ℚ) ≤ p.2 ∧ p.1 ∈ items ∧ p.2 = scoreOf artist title dur p.1) ∧
    (search_tracks_multiple artist title dur items).length ≤ limit := by
  have hperm0 : List.Perm
      (stableSortDesc (fun p : Track × ℚ => p.2)
        (items.map (fun c => (c, scoreOf artist title dur c))))
      (items.map (fun c => (c, scoreOf artist title dur c))) :=
    stableSortDesc_perm _ _
  have hperm : List.Perm (search_tracks_multiple artist title dur items)
      ((items.map (fun c => (c, scoreOf artist title dur c))).filter
        (fun p => (3 / 10 : ℚ) ≤ p.2)) := hperm0.filter _
  have hsorted : List.Pairwise (fun p q : Track × ℚ => q.2 ≤ p.2)
      (search_tracks_multiple artist title dur items) := by
    have h := stableSortDesc_sorted (fun p : Track × ℚ => p.2)
      (items.map (fun c => (c, scoreOf artist title dur c)))
    exact h.sublist (List.filter_sublist _)
  refine ⟨hperm, hsorted, ?_, ?_⟩
  · intro p hp
    have hp2 := hperm.mem_iff.mp hp
    rw [List.mem_filter] at hp2
    obtain ⟨hpm, hpc⟩ := hp2
    rw [List.mem_map] at hpm
    obtain ⟨c, hcm, hcp⟩ := hpm
    refine ⟨by simpa using hpc, ?_, ?_⟩
    · rw [← hcp]; exact hcm
    · rw [← hcp]
  · calc (search_tracks_multiple artist title dur items).length
        = ((items.map (fun c => (c, scoreOf artist title dur c))).filter
            (fun p => (3 / 10 : ℚ) ≤ p.2)).length := hperm.length_eq
      _ ≤ (items.map (fun c => (c, scoreOf artist title dur c))).length :=
          List.length_filter_le _ _
      _ = items.length := List.length_map _ _
      _ ≤ limit := hlim

theorem search_tracks_multiple_ranked_witness :
    ([trackW] : List Track).length ≤ 1 ∧
    (∀ p ∈ search_tracks_multiple ("b".toList) ("a".toList) none [trackW],
      (3 / 10 : ℚ) ≤ p.2 ∧ p.1 ∈ [trackW] ∧
        p.2 = scoreOf ("b".toList) ("a".toList) none p.1) ∧
    (search_tracks_multiple ("b".toList) ("a".toList) none [trackW]).length ≤ 1 := by
  have h := search_tracks_multiple_ranked ("b".toList) ("a".toList) none 1 [trackW]
    (by decide)
  exact ⟨by decide, h.2.2.1, h.2.2.2⟩

theorem filter_swap {β : Type} (p q : β → Bool) (l : List β) :
    (l.filter q).filter p = (l.filter p).filter q := by
  induction l with
  | nil => rfl
  | cons x xs ih =>
    by_cases hp : p x <;> by_cases hq : q x <;>
      simp [List.filter_cons, hp, hq, ih]

/-- Equal-title catalog candidates with different popularity, used to
exhibit the tie-break behaviour. -/
def cexT1 : Track := ⟨"a".toList, [], none, 1⟩

def cexT2 : Track := ⟨"a".toList, [], none, 99⟩

theorem score_cexT1 : scoreOf ([] : Str) ("a".toList) none cexT1 = 3 / 5 := by
  unfold scoreOf
  rw [if_neg (by decide : ¬ ¬ ([] : Str).isEmpty = true)]
  rw [show similarity ("a".toList) cexT1.name = 1 from similarity_self _ (by decide)]
  show (6 / 10 : ℚ) * 1 + 4 / 10 * 0 - 0 = 3 / 5
  norm_num

theorem score_cexT2 : scoreOf ([] : Str) ("a".toList) none cexT2 = 3 / 5 := by
  unfold scoreOf
  rw [if_neg (by decide : ¬ ¬ ([] : Str).isEmpty = true)]
  rw [show similarity ("a".toList) cexT2.name = 1 from similarity_self _ (by decide)]
  show (6 / 10 : ℚ) * 1 + 4 / 10 * 0 - 0 = 3 / 5
  norm_num

/-- C8 counterexample: two candidates with equal scores keep catalog
order in the ranked output — the lower-popularity candidate stays first;
popularity never enters the track scoring or ordering. -/
theorem popularity_tiebreak_counterexample :
    scoreOf ([] : Str) ("a".toList) none cexT1
      = scoreOf ([] : Str) ("a".toList) none cexT2 ∧
    cexT1.popularity < cexT2.popularity ∧
    search_tracks_multiple ([] : Str) ("a".toList) none [cexT1, cexT2]
      = [(cexT1, 3 / 5), (cexT2, 3 / 5)] := by
  refine ⟨by rw [score_cexT1, score_cexT2], by decide, ?_⟩
  have hmap : ([cexT1, cexT2] : List Track).map
      (fun c => (c, scoreOf ([] : Str) ("a".toList) none c))
      = [(cexT1, 3 / 5), (cexT2, 3 / 5)] := by
    rw [List.map_cons, List.map_cons, List.map_nil, score_cexT1, score_cexT2]
  have hsort : stableSortDesc (fun p : Track × ℚ => p.2)
      [(cexT1, (3 : ℚ) / 5), (cexT2, 3 / 5)]
      = [(cexT1, 3 / 5), (cexT2, 3 / 5)] := by
    show insertDesc (fun p : Track × ℚ => p.2) (cexT2, 3 / 5) [(cexT1, 3 / 5)]
      = [(cexT1, 3 / 5), (cexT2, 3 / 5)]
    show (if ((cexT1, (3 : ℚ) / 5) : Track × ℚ).2 < ((cexT2, (3 : ℚ) / 5) : Track × ℚ).2
      then (cexT2, 3 / 5) :: [(cexT1, 3 / 5)]
      else (cexT1, 3 / 5) :: insertDesc (fun p : Track × ℚ => p.2) (cexT2, 3 / 5) [])
      = [(cexT1, 3 / 5), (cexT2, 3 / 5)]
    rw [if_neg (lt_irrefl ((3 : ℚ) / 5))]
    rfl
  unfold search_tracks_multiple
  rw [hmap, hsort]
  rw [List.filter_cons, List.filter_cons, List.filter_nil]
  rw [if_pos (decide_eq_true (show (3 : ℚ) / 10 ≤ ((cexT1, (3 : ℚ) / 5) : Track × ℚ).2
    from by norm_num))]
  rw [if_pos (decide_eq_true (show (3 : ℚ) / 10 ≤ ((cexT2, (3 : ℚ) / 5) : Track × ℚ).2
    from by norm_num))]

/-- C8 (amended): popularity plays no role in track tie-breaking. What
holds instead: (a) `search_track` returns the first candidate, in
catalog order, whose score strictly exceeds every earlier score and is
not exceeded later — so the earlier of two equal-scoring candidates
wins; (b) within the ranked output of `search_tracks_multiple`, the
candidates of any fixed score appear exactly in catalog order (the sort
is stable and the key is the score alone); (c) for albums,
`search_album` sorts by the pair (popularity, total_tracks)
descending lexicographically and returns a head that dominates every
candidate in that order. -/
theorem tiebreak_order (artist title : Str) (dur : Option Nat)
    (items : List Track) (albums : List Album) (s : ℚ) :
    (∀ c : Track, search_track_pick artist title dur items = some c →
      ∃ pre post, items = pre ++ c :: post ∧
        (∀ e ∈ pre, scoreOf artist title dur e < scoreOf artist title dur c) ∧
        (∀ e ∈ post, scoreOf artist title dur e ≤ scoreOf artist title dur c)) ∧
    ((search_tracks_multiple artist title dur items).filter
        (fun p => decide (p.2 = s)) =
      ((items.map (fun c => (c, scoreOf artist title dur c))).filter
        (fun p => (3 / 10 : ℚ) ≤ p.2)).filter (fun p => decide (p.2 = s))) ∧
    (∀ al ∈ albums, ∀ hd, search_album_pick albums = some hd →
      toLex (al.popularity, al.total_tracks) ≤ toLex (hd.popularity, hd.total_tracks)) := by
  refine ⟨?_, ?_, ?_⟩
  · intro c hp
    unfold search_track_pick at hp
    by_cases hlt : (trackFold artist title dur items).2 < 11 / 20
    · rw [if_pos hlt] at hp
      exact Option.noConfusion hp
    · rw [if_neg hlt] at hp
      rcases trackFoldGo_first artist title dur items none (-1) c hp with
        ⟨heq, _⟩ | ⟨pre, post, hsp, _, hpre, hpost, _⟩
      · rw [show trackFold artist title dur items
            = items.foldl (fun acc c =>
                if acc.2 < scoreOf artist title dur c
                then (some c, scoreOf artist title dur c) else acc)
              (none, -1) from rfl, heq] at hp
        exact Option.noConfusion hp
      · exact ⟨pre, post, hsp, hpre, hpost⟩
  · unfold search_tracks_multiple
    rw [filter_swap]
    rw [stableSortDesc_filter_eq (fun p : Track × ℚ => p.2) s]
    rw [filter_swap]
  · intro al hal a0 hpick
    unfold search_album_pick at hpick
    have hsorted := stableSortDesc_sorted
      (fun a : Album => toLex (a.popularity, a.total_tracks)) albums
    have hperm := stableSortDesc_perm
      (fun a : Album => toLex (a.popularity, a.total_tracks)) albums
    generalize hL : stableSortDesc
      (fun a : Album => toLex (a.popularity, a.total_tracks)) albums = L
        at hpick hsorted hperm
    cases L with
    | nil => exact Option.noConfusion hpick
    | cons h0 rest =>
      have hhd : h0 = a0 := Option.some_injective _ hpick
      rw [hhd] at hsorted hperm
      have hmem : al ∈ a0 :: rest := hperm.mem_iff.mpr hal
      rcases List.mem_cons.mp hmem with rfl | h2
      · exact le_refl _
      · exact (List.pairwise_cons.mp hsorted).1 al h2

/-- Concrete album candidate for the witness. -/
def albW : Album := ⟨0, 5, 7⟩

theorem tiebreak_order_witness :
    search_track_pick ("b".toList) ("a".toList) none [trackW] = some trackW ∧
    (∃ pre post, ([trackW] : List Track) = pre ++ trackW :: post ∧
      (∀ e ∈ pre, scoreOf ("b".toList) ("a".toList) none e
        < scoreOf ("b".toList) ("a".toList) none trackW) ∧
      (∀ e ∈ post, scoreOf ("b".toList) ("a".toList) none e
        ≤ scoreOf ("b".toList) ("a".toList) none trackW)) ∧
    albW ∈ [albW] ∧
    search_album_pick [albW] = some albW ∧
    toLex (albW.popularity, albW.total_tracks)
      ≤ toLex (albW.popularity, albW.total_tracks) := by
  have h := tiebreak_order ("b".toList) ("a".toList) none [trackW] [albW] 0
  have hp : search_track_pick ("b".toList) ("a".toList) none [trackW]
      = some trackW := pickW
  have halb : search_album_pick [albW] = some albW := rfl
  exact ⟨hp, h.1 trackW hp, List.mem_cons_self albW [], halb,
    h.2.2 albW (List.mem_cons_self albW []) albW halb⟩

/-- A ranked candidate joined with its ReccoBeats audio-feature fields,
as consumed by the enhancement pass of `api_search_tracks`: the base
score from `search_tracks_multiple` and the `tempo` / `key` / `mode`
fields of the feature dict (each possibly missing). -/
structure FeatEntry where
  tid : Nat
  base_score : ℚ
  tempo : Option ℚ
  fkey : Option Int
  fmode : Option Int
deriving DecidableEq

/-- Python `round` on an exact rational: round half to even. -/
def roundQ (q : ℚ) : Int :=
  if q - Int.floor q < 1 / 2 then Int.floor q
  else if 1 / 2 < q - Int.floor q then Int.floor q + 1
  else if Int.floor q % 2 = 0 then Int.floor q else Int.floor q + 1

/-- `bpm = round(tempo)`, computed only when tempo, key and mode are all
present. -/
def derivedBpm (e : FeatEntry) : Option Int :=
  match e.tempo, e.fkey, e.fmode with
  | some t, some _, some _ => some (roundQ t)
  | _, _, _ => none

/-- `camelot, _ = key_mode_to_camelot(int(key), int(mode_val))`, computed
only when tempo, key and mode are all present. -/
def derivedCamelot (e : FeatEntry) : Option String :=
  match e.tempo, e.fkey, e.fmode with
  | some _, some k, some m => some (key_mode_to_camelot k m).1
  | _, _, _ => none

/-- `has_features`: both derived values are non-`None`. -/
def hasFeatures (e : FeatEntry) : Bool :=
  (derivedBpm e).isSome && (derivedCamelot e).isSome

/-- `bpm_counts.get(b, 0)`: entries whose truthy derived BPM equals `b`
(a zero BPM is falsy and never counted). -/
def bpmCount (l : List FeatEntry) (b : Int) : Nat :=
  if b = 0 then 0 else l.countP (fun e => decide (derivedBpm e = some b))

/-- `key_counts.get(s, 0)`: entries whose truthy derived Camelot symbol
equals `s` (the empty symbol is falsy and never counted). -/
def camCount (l : List FeatEntry) (s : String) : Nat :=
  if s = "" then 0 else l.countP (fun e => decide (derivedCamelot e = some s))

/-- The flat +0.3 presence bonus. -/
def presenceBonus (e : FeatEntry) : ℚ := if hasFeatures e then 3 / 10 else 0

/-- The consensus bonus of one entry relative to the whole candidate
list: guarded by truthiness of both derived values, one capped term per
signal, each applied only when more than one entry shares the value. -/
def consensusBonus (l : List FeatEntry) (e : FeatEntry) : ℚ :=
  match derivedBpm e, derivedCamelot e with
  | some b, some s =>
    if b ≠ 0 ∧ s ≠ "" then
      (if 1 < bpmCount l b
        then min (1 / 5) (((bpmCount l b - 1 : Nat) : ℚ) * (1 / 20)) else 0)
      + (if 1 < camCount l s
        then min (1 / 5) (((camCount l s - 1 : Nat) : ℚ) * (1 / 20)) else 0)
    else 0
  | _, _ => 0

/-- `enhanced_score = base_score (+ 0.3 if has_features) + consensus_bonus`. -/
def enhancedScore (l : List FeatEntry) (e : FeatEntry) : ℚ :=
  e.base_score + presenceBonus e + consensusBonus l e

/-- The enhancement pass of `api_search_tracks`: enhance every ranked
candidate and re-sort by enhanced score, descending (stable sort). -/
def api_enhance (l : List FeatEntry) : List (FeatEntry × ℚ) :=
  stableSortDesc (fun p => p.2) (l.map (fun e => (e, enhancedScore l e)))

theorem presenceBonus_nonneg (e : FeatEntry) : 0 ≤ presenceBonus e := by
  unfold presenceBonus
  split
  · norm_num
  · exact le_refl 0

theorem presenceBonus_le (e : FeatEntry) : presenceBonus e ≤ 3 / 10 := by
  unfold presenceBonus
  split
  · exact le_refl _
  · norm_num

theorem consensusBonus_nonneg (l : List FeatEntry) (e : FeatEntry) :
    0 ≤ consensusBonus l e := by
  unfold consensusBonus
  cases hb : derivedBpm e with
  | none => exact le_refl 0
  | some b =>
    cases hc : derivedCamelot e with
    | none => exact le_refl 0
    | some s =>
      show (0 : ℚ) ≤ if b ≠ 0 ∧ s ≠ "" then
          (if 1 < bpmCount l b
            then min (1 / 5) (((bpmCount l b - 1 : Nat) : ℚ) * (1 / 20)) else 0)
          + (if 1 < camCount l s
            then min (1 / 5) (((camCount l s - 1 : Nat) : ℚ) * (1 / 20)) else 0)
        else 0
      split
      · have h1 : (0 : ℚ) ≤ (if 1 < bpmCount l b
            then min (1 / 5) (((bpmCount l b - 1 : Nat) : ℚ) * (1 / 20)) else 0) := by
          split
          · exact le_min (by norm_num) (by positivity)
          · exact le_refl 0
        have h2 : (0 : ℚ) ≤ (if 1 < camCount l s
            then min (1 / 5) (((camCount l s - 1 : Nat) : ℚ) * (1 / 20)) else 0) := by
          split
          · exact le_min (by norm_num) (by positivity)
          · exact le_refl 0
        linarith
      · exact le_refl 0

theorem consensusBonus_le (l : List FeatEntry) (e : FeatEntry) :
    consensusBonus l e ≤ 2 / 5 := by
  unfold consensusBonus
  cases hb : derivedBpm e with
  | none => norm_num
  | some b =>
    cases hc : derivedCamelot e with
    | none => norm_num
    | some s =>
      show (if b ≠ 0 ∧ s ≠ "" then
          (if 1 < bpmCount l b
            then min (1 / 5) (((bpmCount l b - 1 : Nat) : ℚ) * (1 / 20)) else 0)
          + (if 1 < camCount l s
            then min (1 / 5) (((camCount l s - 1 : Nat) : ℚ) * (1 / 20)) else 0)
        else 0) ≤ 2 / 5
      split
      · have h1 : (if 1 < bpmCount l b
            then min (1 / 5) (((bpmCount l b - 1 : Nat) : ℚ) * (1 / 20)) else 0)
              ≤ (1 / 5 : ℚ) := by
          split
          · exact min_le_left _ _
          · norm_num
        have h2 : (if 1 < camCount l s
            then min (1 / 5) (((camCount l s - 1 : Nat) : ℚ) * (1 / 20)) else 0)
              ≤ (1 / 5 : ℚ) := by
          split
          · exact min_le_left _ _
          · norm_num
        linarith
      · norm_num

/-- C6: per candidate, the feature-derived bonus added to the base score
is between 0 and 0.7 — a flat 0.3 presence bonus plus at most 0.2 per
consensus signal; for an entry with truthy BPM and Camelot values each
consensus term equals `min(0.2, 0.05 * (match_count - 1))`; the enhanced
output re-sorts the candidates by enhanced score, descending. -/
theorem api_enhancement_bonus (l : List FeatEntry) :
    (∀ e ∈ l, 0 ≤ enhancedScore l e - e.base_score ∧
      enhancedScore l e - e.base_score ≤ 7 / 10) ∧
    (∀ e : FeatEntry, enhancedScore l e
      = e.base_score + presenceBonus e + consensusBonus l e) ∧
    (∀ e ∈ l, ∀ (b : Int) (s : String), derivedBpm e = some b →
      derivedCamelot e = some s → b ≠ 0 → s ≠ "" →
      consensusBonus l e
        = min (1 / 5) (((bpmCount l b - 1 : Nat) : ℚ) * (1 / 20))
          + min (1 / 5) (((camCount l s - 1 : Nat) : ℚ) * (1 / 20))) ∧
    List.Perm (api_enhance l) (l.map (fun e => (e, enhancedScore l e))) ∧
    List.Pairwise (fun p q : FeatEntry × ℚ => q.2 ≤ p.2) (api_enhance l) := by
  refine ⟨?_, fun e => rfl, ?_, stableSortDesc_perm _ _, stableSortDesc_sorted _ _⟩
  · intro e _
    have h : enhancedScore l e - e.base_score
        = presenceBonus e + consensusBonus l e := by
      unfold enhancedScore; ring
    rw [h]
    constructor
    · linarith [presenceBonus_nonneg e, consensusBonus_nonneg l e]
    · linarith [presenceBonus_le e, consensusBonus_le l e]
  · intro e he b s hb hc hb0 hs0
    unfold consensusBonus
    rw [hb, hc]
    show (if b ≠ 0 ∧ s ≠ "" then
        (if 1 < bpmCount l b
          then min (1 / 5) (((bpmCount l b - 1 : Nat) : ℚ) * (1 / 20)) else 0)
        + (if 1 < camCount l s
          then min (1 / 5) (((camCount l s - 1 : Nat) : ℚ) * (1 / 20)) else 0)
      else 0) = _
    rw [if_pos ⟨hb0, hs0⟩]
    have hbge : 1 ≤ bpmCount l b := by
      unfold bpmCount
      rw [if_neg hb0]
      exact List.countP_pos.mpr ⟨e, he, by simp [hb]⟩
    have hcge : 1 ≤ camCount l s := by
      unfold camCount
      rw [if_neg hs0]
      exact List.countP_pos.mpr ⟨e, he, by simp [hc]⟩
    have hbterm : (if 1 < bpmCount l b
        then min (1 / 5) (((bpmCount l b - 1 : Nat) : ℚ) * (1 / 20)) else 0)
          = min (1 / 5) (((bpmCount l b - 1 : Nat) : ℚ) * (1 / 20)) := by
      by_cases h1 : 1 < bpmCount l b
      · rw [if_pos h1]
      · have heq : bpmCount l b = 1 := le_antisymm (not_lt.mp h1) hbge
        rw [if_neg h1, heq]
        rw [show ((1 - 1 : Nat) : ℚ) = 0 from by norm_num, zero_mul]
        exact (min_eq_right (by norm_num)).symm
    have hcterm : (if 1 < camCount l s
        then min (1 / 5) (((camCount l s - 1 : Nat) : ℚ) * (1 / 20)) else 0)
          = min (1 / 5) (((camCount l s - 1 : Nat) : ℚ) * (1 / 20)) := by
      by_cases h1 : 1 < camCount l s
      · rw [if_pos h1]
      · have heq : camCount l s = 1 := le_antisymm (not_lt.mp h1) hcge
        rw [if_neg h1, heq]
        rw [show ((1 - 1 : Nat) : ℚ) = 0 from by norm_num, zero_mul]
        exact (min_eq_right (by norm_num)).symm
    rw [hbterm, hcterm]

/-- Concrete feature entry for the witness: tempo 120, C major. -/
def featW : FeatEntry := ⟨0, 1 / 2, some 120, some 0, some 1⟩

theorem roundQ_120 : roundQ 120 = 120 := by
  unfold roundQ
  rw [show ((120 : ℚ)) = (((120 : Int)) : ℚ) from by norm_num, Int.floor_intCast]
  rw [if_pos (by norm_num : (((120 : Int)) : ℚ) - ((120 : Int) : ℚ) < 1 / 2)]

theorem api_enhancement_bonus_witness :
    featW ∈ [featW] ∧
    derivedBpm featW = some 120 ∧
    derivedCamelot featW = some ((key_mode_to_camelot 0 1).1) ∧
    (120 : Int) ≠ 0 ∧
    ((key_mode_to_camelot 0 1).1) ≠ "" ∧
    (0 ≤ enhancedScore [featW] featW - featW.base_score ∧
      enhancedScore [featW] featW - featW.base_score ≤ 7 / 10) ∧
    consensusBonus [featW] featW
      = min (1 / 5) (((bpmCount [featW] 120 - 1 : Nat) : ℚ) * (1 / 20))
        + min (1 / 5)
            (((camCount [featW] ((key_mode_to_camelot 0 1).1) - 1 : Nat) : ℚ)
              * (1 / 20)) := by
  have hb : derivedBpm featW = some 120 := by
    show some (roundQ 120) = some 120
    rw [roundQ_120]
  have hc : derivedCamelot featW = some ((key_mode_to_camelot 0 1).1) := rfl
  have h := api_enhancement_bonus [featW]
  refine ⟨List.mem_cons_self _ _, hb, hc, by decide, by decide,
    h.1 featW (List.mem_cons_self _ _), ?_⟩
  exact h.2.2.1 featW (List.mem_cons_self _ _) 120 _ hb hc (by decide) (by decide)

/-- One element of a ReccoBeats `content` response: the fields the id
extraction reads (`href`, `id`), each possibly missing. -/
structure FeatItem where
  href : Option String
  fid : Option String
deriving DecidableEq

/-- Spotify-id extraction of `get_reccobeats_features_for_spotify_ids`:
when the item's `href` (or `""` if missing) contains
`open.spotify.com/track/`, take the segment after the last `/track/` up
to the first `?`; otherwise fall back to the item's `id` field. -/
def extractSpId (it : FeatItem) : Option String :=
  if containsSub ("open.spotify.com/track/".toList) (it.href.getD "").toList then
    some (((((it.href.getD "").splitOn "/track/").getLastD "").splitOn "?").headD "")
  else it.fid

/-- `app.py` `get_reccobeats_features_for_spotify_ids`, with the HTTP
call abstracted as an oracle `fetch` on a chunk of ids (`none` models a
request that raises; `some items` a response's `content` list). The
returned dict is modelled by its lookup function. -/
def get_reccobeats_features (fetch : List String → Option (List FeatItem))
    (ids : List String) : String → Option FeatItem :=
  (chunk_list ids 40).foldl (fun acc chunk =>
    match fetch chunk with
    | none => acc
    | some items => items.foldl (fun acc2 it =>
        match extractSpId it with
        | some s => if s ≠ "" then (fun x => if x = s then some it else acc2 x) else acc2
        | none => acc2) acc)
    (fun _ => none)

theorem featInner_pres (items : List FeatItem) :
    ∀ (acc : String → Option FeatItem) (x : String), acc x ≠ none →
      (items.foldl (fun acc2 it =>
        match extractSpId it with
        | some s => if s ≠ "" then (fun y => if y = s then some it else acc2 y) else acc2
        | none => acc2) acc) x ≠ none := by
  induction items with
  | nil => intro acc x h; exact h
  | cons it its ih =>
    intro acc x h
    show (its.foldl _ (match extractSpId it with
      | some s => if s ≠ "" then (fun y => if y = s then some it else acc y) else acc
      | none => acc)) x ≠ none
    apply ih
    cases hext : extractSpId it with
    | none => exact h
    | some s =>
      show (if s ≠ "" then (fun y => if y = s then some it else acc y) else acc) x ≠ none
      split
      · show (if x = s then some it else acc x) ≠ none
        split
        · exact fun hc => Option.noConfusion hc
        · exact h
      · exact h

theorem featInner_set (items : List FeatItem) :
    ∀ (acc : String → Option FeatItem) (it : FeatItem) (s : String),
      it ∈ items → extractSpId it = some s → s ≠ "" →
      (items.foldl (fun acc2 it =>
        match extractSpId it with
        | some s => if s ≠ "" then (fun y => if y = s then some it else acc2 y) else acc2
        | none => acc2) acc) s ≠ none := by
  induction items with
  | nil => intro acc it s hmem; exact absurd hmem (List.not_mem_nil it)
  | cons y ys ih =>
    intro acc it s hmem hext hs
    rcases List.mem_cons.mp hmem with rfl | hmem2
    · show (ys.foldl _ (match extractSpId it with
        | some s => if s ≠ "" then (fun z => if z = s then some it else acc z) else acc
        | none => acc)) s ≠ none
      apply featInner_pres
      rw [hext]
      show (if s ≠ "" then (fun z => if z = s then some it else acc z) else acc) s ≠ none
      rw [if_pos hs]
      show (if s = s then some it else acc s) ≠ none
      rw [if_pos rfl]
      exact fun hc => Option.noConfusion hc
    · exact ih _ it s hmem2 hext hs

theorem featOuter_pres (fetch : List String → Option (List FeatItem)) :
    ∀ (chunks : List (List String)) (acc : String → Option FeatItem) (x : String),
      acc x ≠ none →
      (chunks.foldl (fun acc chunk =>
        match fetch chunk with
        | none => acc
        | some items => items.foldl (fun acc2 it =>
            match extractSpId it with
            | some s => if s ≠ "" then (fun y => if y = s then some it else acc2 y)
              else acc2
            | none => acc2) acc) acc) x ≠ none := by
  intro chunks
  induction chunks with
  | nil => intro acc x h; exact h
  | cons c cs ih =>
    intro acc x h
    apply ih
    show (match fetch c with
      | none => acc
      | some items => items.foldl (fun acc2 it =>
          match extractSpId it with
          | some s => if s ≠ "" then (fun y => if y = s then some it else acc2 y)
            else acc2
          | none => acc2) acc) x ≠ none
    cases hf : fetch c with
    | none => exact h
    | some items => exact featInner_pres items acc x h

theorem featOuter_set (fetch : List String → Option (List FeatItem)) :
    ∀ (chunks : List (List String)) (acc : String → Option FeatItem)
      (chunk : List String) (items : List FeatItem) (it : FeatItem) (s : String),
      chunk ∈ chunks → fetch chunk = some items → it ∈ items →
      extractSpId it = some s → s ≠ "" →
      (chunks.foldl (fun acc chunk =>
        match fetch chunk with
        | none => acc
        | some items => items.foldl (fun acc2 it =>
            match extractSpId it with
            | some s => if s ≠ "" then (fun y => if y = s then some it else acc2 y)
              else acc2
            | none => acc2) acc) acc) s ≠ none := by
  intro chunks
  induction chunks with
  | nil => intro acc chunk items it s hmem; exact absurd hmem (List.not_mem_nil chunk)
  | cons c cs ih =>
    intro acc chunk items it s hmem hf hit hext hs
    rcases List.mem_cons.mp hmem with rfl | hmem2
    · show (cs.foldl (fun (acc : String → Option FeatItem) (chunk : List String) =>
          match fetch chunk with
          | none => acc
          | some items => items.foldl (fun (acc2 : String → Option FeatItem) it =>
              match extractSpId it with
              | some s => if s ≠ "" then (fun y => if y = s then some it else acc2 y)
                else acc2
              | none => acc2) acc)
          (match fetch chunk with
          | none => acc
          | some items => items.foldl (fun (acc2 : String → Option FeatItem) it =>
              match extractSpId it with
              | some s => if s ≠ "" then (fun y => if y = s then some it else acc2 y)
                else acc2
              | none => acc2) acc)) s ≠ none
      apply featOuter_pres
      rw [hf]
      exact featInner_set items acc it s hit hext hs
    · exact ih _ chunk items it s hmem2 hf hit hext hs

theorem featInner_none (items : List FeatItem) :
    ∀ (acc : String → Option FeatItem) (s : String),
      (∀ it ∈ items, ¬ (extractSpId it = some s ∧ s ≠ "")) → acc s = none →
      (items.foldl (fun acc2 it =>
        match extractSpId it with
        | some s => if s ≠ "" then (fun y => if y = s then some it else acc2 y) else acc2
        | none => acc2) acc) s = none := by
  induction items with
  | nil => intro acc s _ h; exact h
  | cons it its ih =>
    intro acc s hno h
    apply ih _ s (fun y hy => hno y (List.mem_cons_of_mem it hy))
    show (match extractSpId it with
      | some s2 => if s2 ≠ "" then (fun y => if y = s2 then some it else acc y) else acc
      | none => acc) s = none
    cases hext : extractSpId it with
    | none => exact h
    | some s2 =>
      show (if s2 ≠ "" then (fun y => if y = s2 then some it else acc y) else acc) s = none
      split
      case isTrue hs2 =>
        show (if s = s2 then some it else acc s) = none
        rw [if_neg ?_]
        · exact h
        · intro heq
          exact hno it (List.mem_cons_self it its) ⟨by rw [hext, heq], by rw [heq]; exact hs2⟩
      case isFalse _ => exact h

theorem featOuter_none (fetch : List String → Option (List FeatItem)) :
    ∀ (chunks : List (List String)) (acc : String → Option FeatItem) (s : String),
      (∀ chunk ∈ chunks, ∀ items, fetch chunk = some items →
        ∀ it ∈ items, ¬ (extractSpId it = some s ∧ s ≠ "")) →
      acc s = none →
      (chunks.foldl (fun acc chunk =>
        match fetch chunk with
        | none => acc
        | some items => items.foldl (fun acc2 it =>
            match extractSpId it with
            | some s => if s ≠ "" then (fun y => if y = s then some it else acc2 y)
              else acc2
            | none => acc2) acc) acc) s = none := by
  intro chunks
  induction chunks with
  | nil => intro acc s _ h; exact h
  | cons c cs ih =>
    intro acc s hno h
    apply ih _ s (fun ch hch => hno ch (List.mem_cons_of_mem c hch))
    show (match fetch c with
      | none => acc
      | some items => items.foldl (fun acc2 it =>
          match extractSpId it with
          | some s => if s ≠ "" then (fun y => if y = s then some it else acc2 y)
            else acc2
          | none => acc2) acc) s = none
    cases hf : fetch c with
    | none => exact h
    | some items =>
      exact featInner_none items acc s
        (hno c (List.mem_cons_self c cs) items hf) h

/-- C9: the batch feature fetch splits the ids into chunks of at most 40
per call; a chunk whose call fails (oracle `none`) is skipped — the ids
stored from every successful chunk are still present in the result — and
an id stored by no response is simply absent from the returned map. -/
theorem reccobeats_batch (fetch : List String → Option (List FeatItem))
    (ids : List String) :
    (∀ chunk ∈ chunk_list ids 40, chunk.length ≤ 40) ∧
    (∀ chunk ∈ chunk_list ids 40, ∀ items, fetch chunk = some items →
      ∀ it ∈ items, ∀ s, extractSpId it = some s → s ≠ "" →
        get_reccobeats_features fetch ids s ≠ none) ∧
    (∀ s : String,
      (∀ chunk ∈ chunk_list ids 40, ∀ items, fetch chunk = some items →
        ∀ it ∈ items, ¬ (extractSpId it = some s ∧ s ≠ "")) →
      get_reccobeats_features fetch ids s = none) := by
  refine ⟨?_, ?_, ?_⟩
  · intro chunk hc
    unfold chunk_list at hc
    rw [if_neg (by norm_num : ¬ (40 : Nat) = 0)] at hc
    exact chunkGo_le 40 ids.length ids chunk hc
  · intro chunk hc items hf it hit s hext hs
    exact featOuter_set fetch (chunk_list ids 40) _ chunk items it s hc hf hit hext hs
  · intro s hno
    exact featOuter_none fetch (chunk_list ids 40) _ s hno rfl

/-- Concrete fetch oracle and response item for the witness. -/
def itW : FeatItem := ⟨none, some "t1"⟩

def fetchW (chunk : List String) : Option (List FeatItem) :=
  if chunk = ["t1"] then some [itW] else none

theorem reccobeats_batch_witness :
    (["t1"] : List String) ∈ chunk_list ["t1"] 40 ∧
    (["t1"] : List String).length ≤ 40 ∧
    fetchW ["t1"] = some [itW] ∧
    itW ∈ [itW] ∧
    extractSpId itW = some "t1" ∧
    ("t1" : String) ≠ "" ∧
    get_reccobeats_features fetchW ["t1"] "t1" ≠ none := by
  have h := reccobeats_batch fetchW ["t1"]
  have hc : (["t1"] : List String) ∈ chunk_list ["t1"] 40 := by decide
  have hf : fetchW ["t1"] = some [itW] := by decide
  have hext : extractSpId itW = some "t1" := by decide
  refine ⟨hc, by decide, hf, List.mem_cons_self _ _, hext, by decide, ?_⟩
  exact h.2.1 ["t1"] hc [itW] hf itW (List.mem_cons_self _ _) "t1" hext (by decide)
